import Mathlib

/-!
# Verification of `tslearn.barycenters`

Shallow embedding of the barycenter-computation module (`barycenters.py`)
of the tslearn repository, together with proofs of the specified
properties.

Modelling conventions:
* real numbers are modelled as rationals (`ℚ`);
* a `d`-dimensional sample is a `List ℚ`;
* a possibly-padded sample is an `Option (List ℚ)` where `none` stands
  for a NaN padding row (tslearn pads variable-length series with NaN
  rows when packing them into a rectangular array);
* a (possibly padded) time series is a `List (Option (List ℚ))`;
* external collaborators that live outside the shown source
  (`dtw_path` from `tslearn.metrics`, the scipy L-BFGS minimizer) are
  taken as oracle parameters of the corresponding functions;
* helpers from `tslearn.utils` / `tslearn.preprocessing` that are used
  by `barycenters.py` but whose source is not part of the repository
  snapshot (`to_time_series_dataset`, `ts_size`, `check_equal_size`,
  `TimeSeriesResampler`) are modelled from the spec; each carries a
  doc comment saying so.
-/

namespace Tslearn

/-- A `d`-dimensional sample: a row of the numeric array. -/
abbrev Sample := List ℚ

/-- A possibly-NaN sample row: `none` models a NaN padding row. -/
abbrev PSample := Option Sample

/-- A (possibly padded) time series: rows of the `(sz, d)` array. -/
abbrev PSeries := List PSample

/-- A warping path: list of index pairs, as returned by `dtw_path`. -/
abbrev Path := List (ℕ × ℕ)

/-- The external alignment primitive `dtw_path` from `tslearn.metrics`
(out of scope per the spec): given two series it returns a warping path
together with the DTW distance. -/
abbrev DTWOracle := PSeries → PSeries → Path × ℚ

/-! ## Elementary vector arithmetic (numpy row operations) -/

/-- Componentwise addition of two rows (numpy `+` on equal-shape rows). -/
def vadd (a b : Sample) : Sample := List.zipWith (· + ·) a b

/-- Componentwise subtraction of two rows. -/
def vsub (a b : Sample) : Sample := List.zipWith (· - ·) a b

/-- Scalar multiplication of a row. -/
def vsmul (c : ℚ) (a : Sample) : Sample := a.map (fun x => c * x)

/-- The all-zero row of dimension `d` (numpy `zeros`). -/
def vzero (d : ℕ) : Sample := List.replicate d 0

/-- Sum of a list of rows of dimension `d` (numpy summation of rows). -/
def vsum (d : ℕ) (l : List Sample) : Sample := l.foldr vadd (vzero d)

/-- Sum of a list of scalars (numpy `sum`). -/
def ssum (l : List ℚ) : ℚ := l.sum

/-- Squared Euclidean norm of a row (`numpy.linalg.norm(v) ** 2`). -/
def sqnorm (a : Sample) : ℚ := ssum (a.map (fun x => x * x))

/-! ## Modelled collaborators from `tslearn.utils` -/

/-- Modelled from the spec: `to_time_series_dataset` packs a collection
of series into a uniform array by padding every series with NaN rows up
to the common maximum length ("lengths may differ (padded to a common
maximum sz)"; padding is "represented as no value").  Idempotent on an
already-rectangular dataset. -/
def to_time_series_dataset (X : List PSeries) : List PSeries :=
  let sz := (X.map List.length).foldr max 0
  X.map (fun s => s ++ List.replicate (sz - s.length) none)

/-- The maximal raw length of the dataset (`X_.shape[1]` after packing). -/
def maxLen (X : List PSeries) : ℕ := (X.map List.length).foldr max 0

/-- `X_.shape[1]` of a packed dataset: the (common) row count. -/
def shape1 (X_ : List PSeries) : ℕ := (X_.headD []).length

/-- `X.shape[-1]`: the dimensionality `d` of the samples, read off the
first non-padding row of the packed array. -/
def dsdim (X_ : List PSeries) : ℕ :=
  (((X_.map (fun s => s.filterMap id)).foldr (· ++ ·) []).headD []).length

/-- Modelled from the spec: `ts_size` recovers the true length of a
padded series ("true length is recoverable by scanning from the end for
the last non-padding sample"). -/
def ts_size (s : PSeries) : ℕ :=
  (s.reverse.dropWhile (fun r => r.isNone)).length

/-- Modelled from the spec: `check_equal_size` holds when every series
of the dataset has the same true length. -/
def check_equal_size (X_ : List PSeries) : Bool :=
  match X_ with
  | [] => true
  | s :: rest => rest.all (fun t => ts_size t = ts_size s)

/-! ## WeightVector -/

/-- `_set_weights(w, n)`: return `w` if it is a weight vector of size
`n`, and a vector of `n` ones otherwise. -/
def _set_weights (w : Option (List ℚ)) (n : ℕ) : List ℚ :=
  match w with
  | none => List.replicate n 1
  | some w => if w.length ≠ n then List.replicate n 1 else w

/-! ## EuclideanAverager -/

/-- `numpy.average` over a column of (possibly NaN) rows with weights:
the weighted mean `Σ wᵢ·xᵢ / Σ wᵢ`; any NaN row contaminates the result
(IEEE NaN propagation), modelled by returning `none`. -/
def npAverage (d : ℕ) (xs : List PSample) (ws : List ℚ) : PSample :=
  if xs.all (fun r => r.isSome) then
    some (vsmul (1 / ssum ws)
      (vsum d (List.zipWith vsmul ws (xs.map (fun r => r.getD [])))))
  else none

/-- `euclidean_barycenter(X, weights)`: pack the dataset, validate the
weights, and return `numpy.average(X_, axis=0, weights=weights)`, i.e.
the pointwise weighted mean across series. -/
def euclidean_barycenter (X : List PSeries) (weights : Option (List ℚ)) :
    PSeries :=
  let X_ := to_time_series_dataset X
  let w := _set_weights weights X_.length
  (List.range (shape1 X_)).map
    (fun t => npAverage (dsdim X_) (X_.map (fun s => s.getD t none)) w)

/-! ## BarycenterInitializer -/

/-- `numpy.linspace(0, 1, m)`: `m` evenly spaced points on `[0,1]`. -/
def linspace01 (m : ℕ) : List ℚ :=
  (List.range m).map
    (fun i : ℕ => if m ≤ 1 then 0 else (i : ℚ) / ((m : ℚ) - 1))

/-- Linear interpolation (`scipy.interpolate.interp1d`, kind "linear")
of the profile `ys` sampled on the uniform grid `linspace(0, 1, L)`,
evaluated at query point `q ∈ [0,1]`. -/
def lerpAt (ys : List Sample) (q : ℚ) : Sample :=
  let L := ys.length
  let p := q * ((L : ℚ) - 1)
  let j := Int.toNat ⌊p⌋
  if j + 1 < L then
    vadd (vsmul (1 - (p - (j : ℚ))) (ys.getD j []))
      (vsmul (p - (j : ℚ)) (ys.getD (j + 1) []))
  else ys.getD (L - 1) []

/-- Resample a profile to `m` points by linear interpolation over the
normalized `[0,1]` parameterization (the `f(xnew)` step of `_init_avg`). -/
def interp_linear (ys : List Sample) (m : ℕ) : List Sample :=
  (linspace01 m).map (lerpAt ys)

/-- `numpy.nanmean(X_, axis=0)` at one column: mean of the non-NaN rows;
NaN (`none`) when every row is NaN. -/
def nanmeanCol (d : ℕ) (col : List PSample) : PSample :=
  let present := col.filterMap id
  if present.isEmpty then none
  else some (vsmul (1 / (present.length : ℚ)) (vsum d present))

/-- `numpy.nanmean(X_, axis=0)`: the per-position mean profile of the
packed dataset, ignoring padding rows. -/
def nanmean0 (X_ : List PSeries) : PSeries :=
  (List.range (shape1 X_)).map
    (fun t => nanmeanCol (dsdim X_) (X_.map (fun s => s.getD t none)))

/-- `_init_avg(X, barycenter_size)`: the nan-mean profile, resampled by
linear interpolation when its native length differs from the requested
barycenter size.  (For a nonempty packed dataset the mean profile has no
NaN position — every column `t < shape1` holds at least one true row of
a longest series — so the interpolation branch reads plain rows.) -/
def _init_avg (X_ : List PSeries) (barycenter_size : ℕ) : PSeries :=
  if shape1 X_ = barycenter_size then nanmean0 X_
  else
    (interp_linear ((nanmean0 X_).map (fun r => r.getD []))
      barycenter_size).map some

/-! ## Petitjean DBA engine: assignment, cost, update -/

/-- `assign[idx].append(v)` on a list of buckets. -/
def appendAt (l : List (List ℕ)) (idx v : ℕ) : List (List ℕ) :=
  l.set idx (l.getD idx [] ++ [v])

/-- `_petitjean_assignment(X, barycenter)`: for every series `i`,
compute its warping path against the current barycenter, then record
`i` under `assign[0][pair[1]]` and `pair[0]` under `assign[1][pair[1]]`
for every `pair` of the path. -/
def _petitjean_assignment (dtw : DTWOracle) (X_ : List PSeries)
    (barycenter : PSeries) : List (List ℕ) × List (List ℕ) :=
  let barycenter_size := barycenter.length
  (List.range X_.length).foldl
    (fun assign i =>
      let path := (dtw (X_.getD i []) barycenter).1
      path.foldl
        (fun a pr => (appendAt a.1 pr.2 i, appendAt a.2 pr.2 pr.1))
        assign)
    (List.replicate barycenter_size [], List.replicate barycenter_size [])

/-- `_petitjean_update_barycenter`: row `t` of the new barycenter is
`numpy.average(X[assign[0][t], assign[1][t]], axis=0,
weights=weights[assign[0][t]])`.  (The source fills a `zeros` array row
by row over `range(barycenter_size)`; every row is assigned exactly
once, which the direct `map` expresses.) -/
def _petitjean_update_barycenter (d : ℕ) (X_ : List PSeries)
    (assign : List (List ℕ) × List (List ℕ)) (barycenter_size : ℕ)
    (weights : List ℚ) : PSeries :=
  (List.range barycenter_size).map (fun t =>
    npAverage d
      (List.zipWith (fun i ti => (X_.getD i []).getD ti none)
        (assign.1.getD t []) (assign.2.getD t []))
      ((assign.1.getD t []).map (fun i => weights.getD i 0)))

/-- `_petitjean_cost`: normalized weighted sum of squared distances
between each assigned sample and its barycenter row.  (A NaN row can
never be selected by a valid warping path; the `getD` defaults are
unreachable there.) -/
def _petitjean_cost (d : ℕ) (X_ : List PSeries) (barycenter : PSeries)
    (assign : List (List ℕ) × List (List ℕ)) (weights : List ℚ) : ℚ :=
  ssum ((List.range barycenter.length).map (fun t =>
    ssum (List.zipWith
      (fun i ti => weights.getD i 0 *
        sqnorm (vsub (((X_.getD i []).getD ti none).getD (vzero d))
          ((barycenter.getD t none).getD (vzero d))))
      (assign.1.getD t []) (assign.2.getD t []))))
  / ssum weights

/-! ## Majorize-Minimize DBA engine -/

/-- `_mm_assignment(X, barycenter, weights)`: align the barycenter
against every series, yielding the list of warping paths and the
normalized weighted sum of squared DTW distances. -/
def _mm_assignment (dtw : DTWOracle) (X_ : List PSeries)
    (barycenter : PSeries) (weights : List ℚ) : List Path × ℚ :=
  let results := (List.range X_.length).map
    (fun i => dtw barycenter (X_.getD i []))
  let cost :=
    ssum (List.zipWith (fun r w => r.2 * r.2 * w) results weights)
      / ssum weights
  (results.map Prod.fst, cost)

/-- `m[i][j] = v` on a row-major matrix. -/
def mset (m : List (List ℚ)) (i j : ℕ) (v : ℚ) : List (List ℚ) :=
  m.set i ((m.getD i []).set j v)

/-- `numpy.zeros((r, c))`. -/
def mzeros (r c : ℕ) : List (List ℚ) :=
  List.replicate r (List.replicate c 0)

/-- `w_k.sum(axis=1)`: the vector of row sums. -/
def mrowsums (m : List (List ℚ)) : List ℚ := m.map ssum

/-- `w_k * c`: scalar multiplication of a matrix. -/
def mscale (c : ℚ) (m : List (List ℚ)) : List (List ℚ) :=
  m.map (vsmul c)

/-- `_mm_valence_warping(list_p_k, barycenter_size, weights)`: for each
path `p_k`, set `w_k[i, j] = 1` at every aligned pair of a
`barycenter_size × sz_k` zero matrix where `sz_k = p_k[-1][1] + 1`;
collect the weighted matrices `w_k * weights[k]` and accumulate
`diag_sum_v_k += w_k.sum(axis=1) * weights[k]`. -/
def _mm_valence_warping (list_p_k : List Path) (barycenter_size : ℕ)
    (weights : List ℚ) : List ℚ × List (List (List ℚ)) :=
  list_p_k.enum.foldl
    (fun acc kp =>
      let sz_k := (kp.2.getLastD (0, 0)).2 + 1
      let w_k := kp.2.foldl (fun m pr => mset m pr.1 pr.2 1)
        (mzeros barycenter_size sz_k)
      (vadd acc.1 (vsmul (weights.getD kp.1 0) (mrowsums w_k)),
       acc.2 ++ [mscale (weights.getD kp.1 0) w_k]))
    (List.replicate barycenter_size 0, [])

/-- `w_k.dot(x)`: matrix–series product, row `t` is `Σ_j w_k[t][j]·x[j]`. -/
def matvec (d : ℕ) (m : List (List ℚ)) (xs : List Sample) : List Sample :=
  m.map (fun row => vsum d (List.zipWith vsmul row xs))

/-- `_mm_update_barycenter(X, diag_sum_v_k, list_w_k)`: accumulate
`sum_w_x += w_k.dot(x_k[:ts_size(x_k)])` over all series, then return
`numpy.diag(1. / diag_sum_v_k).dot(sum_w_x)`, whose row `t` is
`(1 / diag_sum_v_k[t]) · sum_w_x[t]`. -/
def _mm_update_barycenter (X_ : List PSeries) (diag_sum_v_k : List ℚ)
    (list_w_k : List (List (List ℚ))) : PSeries :=
  let d := dsdim X_
  let barycenter_size := diag_sum_v_k.length
  let sum_w_x := (List.zip list_w_k X_).foldl
    (fun acc wx => List.zipWith vadd acc
      (matvec d wx.1 ((wx.2.take (ts_size wx.2)).map
        (fun r => r.getD (vzero d)))))
    (List.replicate barycenter_size (vzero d))
  (List.zipWith (fun v row => vsmul (1 / v) row) diag_sum_v_k sum_w_x).map
    some

/-! ## The shared DBA iteration loop -/

/-- One iteration of the Petitjean engine's loop body: assignment, cost
on the incoming barycenter, then the bucket-mean update. -/
def petitjeanStep (dtw : DTWOracle) (X_ : List PSeries)
    (weights : List ℚ) (barycenter_size : ℕ) (barycenter : PSeries) :
    ℚ × PSeries :=
  let assign := _petitjean_assignment dtw X_ barycenter
  (_petitjean_cost (dsdim X_) X_ barycenter assign weights,
   _petitjean_update_barycenter (dsdim X_) X_ assign barycenter_size
     weights)

/-- One iteration of the MM engine's loop body: assignment with cost,
valence/warping construction, then the closed-form update. -/
def mmStep (dtw : DTWOracle) (X_ : List PSeries) (weights : List ℚ)
    (barycenter_size : ℕ) (barycenter : PSeries) : ℚ × PSeries :=
  let ac := _mm_assignment dtw X_ barycenter weights
  let vw := _mm_valence_warping ac.1 barycenter_size weights
  (ac.2, _mm_update_barycenter X_ vw.1 vw.2)

/-- `abs(cost_prev - cost) < tol`, with `cost_prev = numpy.inf` before
the first iteration modelled as `none` (the comparison is then false). -/
def condTol (costPrev : Option ℚ) (cost tol : ℚ) : Bool :=
  match costPrev with
  | none => false
  | some p => decide (|p - cost| < tol)

/-- `cost_prev < cost`, false when `cost_prev = numpy.inf`. -/
def condInc (costPrev : Option ℚ) (cost : ℚ) : Bool :=
  match costPrev with
  | none => false
  | some p => decide (p < cost)

/-- The `for it in range(max_iter)` loop shared verbatim by both DBA
engines: run the step, stop without warning when the cost delta is
below tolerance, stop with a `ConvergenceWarning` (the boolean of the
result) when the cost increased, otherwise store `cost_prev = cost` and
continue.  Returns the current barycenter when the iteration budget is
exhausted. -/
def dbaIter (step : PSeries → ℚ × PSeries) (tol : ℚ) :
    ℕ → Option ℚ → PSeries → PSeries × Bool
  | 0, _, b => (b, false)
  | n + 1, costPrev, b =>
    let r := step b
    if condTol costPrev r.1 tol then (r.2, false)
    else if condInc costPrev r.1 then (r.2, true)
    else dbaIter step tol n (some r.1) r.2

/-- The initialization lines shared verbatim by both DBA engines: pack
the dataset, default the barycenter size to the dataset's native
length, validate the weights, and seed the barycenter from
`init_barycenter` when given (its length then overrides the size),
else from `_init_avg`.  Returns `(X_, weights, barycenter_size, seed)`. -/
def dbaSetup (X : List PSeries) (barycenter_size : Option ℕ)
    (init_barycenter : Option PSeries) (weights : Option (List ℚ)) :
    List PSeries × List ℚ × ℕ × PSeries :=
  let X_ := to_time_series_dataset X
  let bsz := barycenter_size.getD (shape1 X_)
  let w := _set_weights weights X_.length
  match init_barycenter with
  | none => (X_, w, bsz, _init_avg X_ bsz)
  | some b => (X_, w, b.length, b)

/-- `dtw_barycenter_averaging_petitjean`: the EM DBA engine.  The
returned boolean records whether a `ConvergenceWarning` was emitted. -/
def dtw_barycenter_averaging_petitjean (dtw : DTWOracle)
    (X : List PSeries) (barycenter_size : Option ℕ)
    (init_barycenter : Option PSeries) (max_iter : ℤ) (tol : ℚ)
    (weights : Option (List ℚ)) : PSeries × Bool :=
  let s := dbaSetup X barycenter_size init_barycenter weights
  dbaIter (petitjeanStep dtw s.1 s.2.1 s.2.2.1) tol max_iter.toNat none
    s.2.2.2

/-- `dtw_barycenter_averaging`: the Majorize-Minimize DBA engine.  The
returned boolean records whether a `ConvergenceWarning` was emitted. -/
def dtw_barycenter_averaging (dtw : DTWOracle) (X : List PSeries)
    (barycenter_size : Option ℕ) (init_barycenter : Option PSeries)
    (max_iter : ℤ) (tol : ℚ) (weights : Option (List ℚ)) :
    PSeries × Bool :=
  let s := dbaSetup X barycenter_size init_barycenter weights
  dbaIter (mmStep dtw s.1 s.2.1 s.2.2.1) tol max_iter.toNat none
    s.2.2.2

/-! ## Soft-DTW barycenter -/

/-- Modelled from the spec: `TimeSeriesResampler(sz=X_.shape[1])` — the
external `resample(series, new_length)` collaborator — resamples every
series' true-length data to the common length by linear interpolation
over the normalized `[0,1]` parameterization. -/
def resampleDataset (X_ : List PSeries) : List PSeries :=
  X_.map (fun s =>
    (interp_linear ((s.take (ts_size s)).map (fun r => r.getD (vzero
      (dsdim X_)))) (shape1 X_)).map some)

/-- `softdtw_barycenter`: seed with the caller's `init`, or with the
Euclidean barycenter of the (resampled when lengths differ) dataset;
hand the seed to the external L-BFGS minimizer (the `opt` oracle, which
closes over the soft-DTW objective) only when `max_iter > 0`, and
return the seed unchanged otherwise. -/
def softdtw_barycenter (opt : PSeries → PSeries) (X : List PSeries)
    (weights : Option (List ℚ)) (max_iter : ℤ) (init : Option PSeries) :
    PSeries :=
  let X_ := to_time_series_dataset X
  let w := _set_weights weights X_.length
  let barycenter := match init with
    | none =>
      if check_equal_size X_ then euclidean_barycenter X_ (some w)
      else euclidean_barycenter (resampleDataset X_) (some w)
    | some b => b
  if 0 < max_iter then opt barycenter else barycenter

/-- Entry `j` of a row, `0` out of range (numpy scalar indexing). -/
def entry (a : Sample) (j : ℕ) : ℚ := a.getD j 0

/-- The barycenter trace of a step function: `bAt k` is the barycenter
entering iteration `k` (so `bAt 0` is the seed and `bAt (k+1)` the
output of iteration `k`'s update). -/
def bAt (step : PSeries → ℚ × PSeries) (b0 : PSeries) : ℕ → PSeries
  | 0 => b0
  | k + 1 => (step (bAt step b0 k)).2

/-- The cost computed during iteration `k`, evaluated on `bAt k`. -/
def cAt (step : PSeries → ℚ × PSeries) (b0 : PSeries) (k : ℕ) : ℚ :=
  (step (bAt step b0 k)).1

/-- The tolerance test as seen at iteration `k ≥ 1`. -/
def tolStop (step : PSeries → ℚ × PSeries) (b0 : PSeries) (tol : ℚ)
    (k : ℕ) : Bool :=
  decide (|cAt step b0 (k - 1) - cAt step b0 k| < tol)

/-- The cost-increase test as seen at iteration `k ≥ 1`. -/
def incStop (step : PSeries → ℚ × PSeries) (b0 : PSeries) (k : ℕ) : Bool :=
  decide (cAt step b0 (k - 1) < cAt step b0 k)

/-- Whether the loop's stopping test fires at iteration `k` (it cannot
fire at `k = 0`, where the previous cost is infinite). -/
def stopsAt (step : PSeries → ℚ × PSeries) (b0 : PSeries) (tol : ℚ) :
    ℕ → Bool
  | 0 => false
  | k + 1 => tolStop step b0 tol (k + 1) || incStop step b0 (k + 1)

/-- The `cost_prev` value entering iteration `k` along an unstopped run
(`numpy.inf`, i.e. `none`, before the first iteration). -/
def prevCost (step : PSeries → ℚ × PSeries) (b0 : PSeries) : ℕ → Option ℚ
  | 0 => none
  | k + 1 => some (cAt step b0 k)

/-- Declarative description of the loop: find the first iteration
index at which the stopping test fires; return that iteration's updated
barycenter, warning exactly when the stop was due to a cost increase
rather than convergence; when no test fires within the budget, return
the barycenter after `maxIter` full iterations, without warning. -/
def dbaDeclarative (step : PSeries → ℚ × PSeries) (tol : ℚ)
    (maxIter : ℕ) (b0 : PSeries) : PSeries × Bool :=
  match (List.range maxIter).find? (stopsAt step b0 tol) with
  | some τ => (bAt step b0 (τ + 1), !tolStop step b0 tol τ)
  | none => (bAt step b0 maxIter, false)

/-- The number of iterations the loop executes: one past the first
iteration index whose stopping test fires, or the full budget when no
test fires.  The stopping iteration is counted because its update runs
before the test. -/
def dbaItersRun (step : PSeries → ℚ × PSeries) (tol : ℚ)
    (maxIter : ℕ) (b0 : PSeries) : ℕ :=
  match (List.range maxIter).find? (stopsAt step b0 tol) with
  | some τ => τ + 1
  | none => maxIter

/-! ## Engine-level helper views and spec-side formulas -/

/-- The Petitjean engine's loop body as a function of the barycenter,
with the setup-derived arguments in place. -/
def petitjeanEngineStep (dtw : DTWOracle) (X : List PSeries)
    (barycenter_size : Option ℕ) (init_barycenter : Option PSeries)
    (weights : Option (List ℚ)) : PSeries → ℚ × PSeries :=
  petitjeanStep dtw (dbaSetup X barycenter_size init_barycenter weights).1
    (dbaSetup X barycenter_size init_barycenter weights).2.1
    (dbaSetup X barycenter_size init_barycenter weights).2.2.1

/-- The MM engine's loop body as a function of the barycenter, with the
setup-derived arguments in place. -/
def mmEngineStep (dtw : DTWOracle) (X : List PSeries)
    (barycenter_size : Option ℕ) (init_barycenter : Option PSeries)
    (weights : Option (List ℚ)) : PSeries → ℚ × PSeries :=
  mmStep dtw (dbaSetup X barycenter_size init_barycenter weights).1
    (dbaSetup X barycenter_size init_barycenter weights).2.1
    (dbaSetup X barycenter_size init_barycenter weights).2.2.1

/-- The seed barycenter entering the loop of either DBA engine. -/
def dbaSeed (X : List PSeries) (barycenter_size : Option ℕ)
    (init_barycenter : Option PSeries) (weights : Option (List ℚ)) :
    PSeries :=
  (dbaSetup X barycenter_size init_barycenter weights).2.2.2

/-- Spec-side formula for the Euclidean barycenter: entry `j` at time
`t` is `Σᵢ wᵢ · Xᵢ[t][j] / Σᵢ wᵢ`. -/
def weightedMeanEntry (X : List PSeries) (w : List ℚ) (t j : ℕ) : ℚ :=
  ssum (List.zipWith (fun wi s => wi * entry ((s.getD t none).getD []) j)
    w X) / ssum w

/-- Spec-side description of the Petitjean bucket at barycenter
position `t`: the pairs `(i, t_series)`, in recording order, such that
`(t_series, t)` lies on series `i`'s warping path against the current
barycenter. -/
def petitjeanBucket (dtw : DTWOracle) (X_ : List PSeries)
    (barycenter : PSeries) (t : ℕ) : List (ℕ × ℕ) :=
  ((List.range X_.length).map (fun i =>
    (((dtw (X_.getD i []) barycenter).1.filter
      (fun pr => pr.2 = t)).map (fun pr => (i, pr.1))))).foldr
    (· ++ ·) []

/-- Spec-side weighted bucket mean (numerator entry) for the Petitjean
update at position `t`, dimension `j`. -/
def petitjeanSpecEntry (dtw : DTWOracle) (X_ : List PSeries)
    (barycenter : PSeries) (weights : List ℚ) (t j : ℕ) : ℚ :=
  ssum ((petitjeanBucket dtw X_ barycenter t).map
      (fun pr => weights.getD pr.1 0 *
        entry (((X_.getD pr.1 []).getD pr.2 none).getD []) j)) /
    ssum ((petitjeanBucket dtw X_ barycenter t).map
      (fun pr => weights.getD pr.1 0))

/-- `sz_k` as computed by `_mm_valence_warping`: `p_k[-1][1] + 1`. -/
def mmSzK (p_k : Path) : ℕ := (p_k.getLastD (0, 0)).2 + 1

/-- The set of series positions aligned to barycenter position `t` in
path `p_k` (the columns of row `t` of `W_k` holding a `1`). -/
def mmAligned (p_k : Path) (t : ℕ) : List ℕ :=
  (List.range (mmSzK p_k)).filter (fun j => decide ((t, j) ∈ p_k))

/-- Spec-side total weighted alignment multiplicity at barycenter
position `t`: `Σₖ weightₖ · #{j : (t, j) on path k}`. -/
def mmSpecValence (list_p_k : List Path) (weights : List ℚ) (t : ℕ) :
    ℚ :=
  ssum (list_p_k.enum.map (fun kp =>
    weights.getD kp.1 0 * ((mmAligned kp.2 t).length : ℕ)))

/-- Spec-side numerator of the MM update: entry `j` of
`Σₖ (Wₖ · xₖ)[t]`, i.e. `Σₖ weightₖ · Σ_{s aligned to t} xₖ[s][j]`. -/
def mmSpecNumerEntry (X_ : List PSeries) (list_p_k : List Path)
    (weights : List ℚ) (t j : ℕ) : ℚ :=
  ssum (list_p_k.enum.map (fun kp =>
    weights.getD kp.1 0 * ssum ((mmAligned kp.2 t).map
      (fun s => entry (((X_.getD kp.1 []).getD s none).getD []) j))))

/-! ## Fixtures for concrete evaluations -/

/-- A trivial alignment oracle used for concrete instantiations. -/
def dtwTriv : DTWOracle := fun _ _ => ([(0, 0)], 0)

/-- A tiny dataset of two one-dimensional length-1 series. -/
def tinyX : List PSeries := [[some [1]], [some [3]]]

/-- A ragged dataset: two one-dimensional series of lengths 2 and 3. -/
def raggedX : List PSeries :=
  [[some [1], some [2]], [some [1], some [2], some [3]]]

/-! ## Entry/length calculus for rows -/

lemma entry_vzero (d j : ℕ) : entry (vzero d) j = 0 := by
  rw [entry, vzero, List.getD, List.get?_eq_getElem?,
    List.getElem?_replicate]
  split <;> simp

lemma length_vsmul (c : ℚ) (a : Sample) : (vsmul c a).length = a.length := by
  simp [vsmul]

lemma length_vadd (a b : Sample) :
    (vadd a b).length = min a.length b.length := by
  simp [vadd]

lemma entry_vsmul (c : ℚ) (a : Sample) (j : ℕ) :
    entry (vsmul c a) j = c * entry a j := by
  unfold entry vsmul
  rw [List.getD, List.getD, List.get?_eq_getElem?, List.get?_eq_getElem?,
    List.getElem?_map]
  rcases h : a[j]? with _ | v <;> simp

lemma entry_vadd (a b : Sample) (h : a.length = b.length) (j : ℕ) :
    entry (vadd a b) j = entry a j + entry b j := by
  induction a generalizing b j with
  | nil =>
    have : b = [] := by
      cases b with
      | nil => rfl
      | cons x xs => simp at h
    subst this
    simp [entry, vadd]
  | cons x xs ih =>
    cases b with
    | nil => simp at h
    | cons y ys =>
      cases j with
      | zero => simp [entry, vadd]
      | succ j =>
        have := ih ys (by simpa using h) j
        simpa [entry, vadd] using this

lemma vsum_nil (d : ℕ) : vsum d [] = vzero d := rfl

lemma vsum_cons (d : ℕ) (x : Sample) (xs : List Sample) :
    vsum d (x :: xs) = vadd x (vsum d xs) := rfl

lemma length_vsum (d : ℕ) (l : List Sample) (h : ∀ x ∈ l, x.length = d) :
    (vsum d l).length = d := by
  induction l with
  | nil => simp [vsum, vzero]
  | cons x xs ih =>
    have hx : x.length = d := h x (List.mem_cons_self x xs)
    have hxs := ih (fun y hy => h y (List.mem_cons_of_mem x hy))
    rw [vsum_cons, length_vadd, hx, hxs, min_self]

lemma entry_vsum (d : ℕ) (l : List Sample) (h : ∀ x ∈ l, x.length = d)
    (j : ℕ) : entry (vsum d l) j = ssum (l.map (fun x => entry x j)) := by
  induction l with
  | nil => simp [vsum, ssum, entry_vzero]
  | cons x xs ih =>
    have hx : x.length = d := h x (List.mem_cons_self x xs)
    have hlen : x.length = (vsum d xs).length := by
      rw [hx, length_vsum d xs (fun y hy => h y (List.mem_cons_of_mem x hy))]
    have hxs := ih (fun y hy => h y (List.mem_cons_of_mem x hy))
    rw [vsum_cons, entry_vadd _ _ hlen, hxs]
    simp [ssum]

/-- Sum of an indicator-weighted map equals the sum over the filtered
list. -/
lemma ssum_map_ite_mul (p : ℕ → Bool) (l : List ℕ) (f : ℕ → ℚ) :
    ssum (l.map (fun j => (if p j then (1 : ℚ) else 0) * f j)) =
      ssum ((l.filter p).map f) := by
  induction l with
  | nil => simp [ssum]
  | cons x xs ih =>
    by_cases hx : p x = true
    · rw [List.map_cons, List.filter_cons_of_pos hx, List.map_cons]
      simp only [ssum, List.sum_cons] at ih ⊢
      rw [ih, hx]
      simp
    · have hxf : p x = false := by
        rcases hb : p x
        · rfl
        · exact absurd hb hx
      rw [List.map_cons, List.filter_cons_of_neg (by simp [hxf])]
      simp only [ssum, List.sum_cons] at ih ⊢
      rw [ih, hxf]
      simp

/-- Sum of an indicator map counts the filtered list. -/
lemma ssum_map_ite_one (p : ℕ → Bool) (l : List ℕ) :
    ssum (l.map (fun j => (if p j then (1 : ℚ) else 0))) =
      (((l.filter p).length : ℕ) : ℚ) := by
  induction l with
  | nil => simp [ssum]
  | cons x xs ih =>
    by_cases hx : p x = true
    · rw [List.map_cons, List.filter_cons_of_pos hx]
      simp only [ssum, List.sum_cons, List.length_cons] at ih ⊢
      rw [ih, hx]
      rw [if_pos rfl]
      push_cast
      ring
    · have hxf : p x = false := by
        rcases hb : p x
        · rfl
        · exact absurd hb hx
      rw [List.map_cons, List.filter_cons_of_neg (by simp [hxf])]
      simp only [ssum, List.sum_cons] at ih ⊢
      rw [ih, hxf]
      simp

/-- A list of known length is the tabulation of its entries. -/
lemma list_eq_map_range_getD (l : List ℚ) :
    l = (List.range l.length).map (fun j => l.getD j 0) := by
  apply List.ext_getElem
  · simp
  · intro i h1 h2
    simp [List.getD, List.get?_eq_getElem?, List.getElem?_eq_getElem, h1]

/-! ## Declarative characterization of the DBA loop -/

lemma condTol_prevCost (step : PSeries → ℚ × PSeries) (b0 : PSeries)
    (tol : ℚ) (k : ℕ) :
    condTol (prevCost step b0 k) (cAt step b0 k) tol =
      (decide (0 < k) && tolStop step b0 tol k) := by
  cases k <;> simp [condTol, prevCost, tolStop]

lemma condInc_prevCost (step : PSeries → ℚ × PSeries) (b0 : PSeries)
    (k : ℕ) :
    condInc (prevCost step b0 k) (cAt step b0 k) =
      (decide (0 < k) && incStop step b0 k) := by
  cases k <;> simp [condInc, prevCost, incStop]

lemma stopsAt_eq (step : PSeries → ℚ × PSeries) (b0 : PSeries) (tol : ℚ)
    (k : ℕ) :
    stopsAt step b0 tol k =
      (decide (0 < k) && (tolStop step b0 tol k || incStop step b0 k)) := by
  cases k <;> simp [stopsAt]

/-- The loop, started at trace position `k` with the matching
`cost_prev`, realizes the declarative first-stop search over the
remaining index window. -/
lemma dbaIter_trace (step : PSeries → ℚ × PSeries) (tol : ℚ)
    (b0 : PSeries) :
    ∀ n k, dbaIter step tol n (prevCost step b0 k) (bAt step b0 k) =
      match ((List.range n).map (fun i => i + k)).find?
          (stopsAt step b0 tol) with
      | some τ => (bAt step b0 (τ + 1), !tolStop step b0 tol τ)
      | none => (bAt step b0 (k + n), false) := by
  intro n
  induction n with
  | zero => intro k; simp [dbaIter]
  | succ n ih =>
    intro k
    have hmap : (List.range (n + 1)).map (fun i => i + k) =
        k :: (List.range n).map (fun i => i + (k + 1)) := by
      rw [List.range_succ_eq_map, List.map_cons, List.map_map]
      refine congrArg₂ _ (by simp) ?_
      refine List.map_congr_left ?_
      intro i _
      simp only [Function.comp_apply]
      omega
    rw [hmap]
    have hstep : dbaIter step tol (n + 1) (prevCost step b0 k)
        (bAt step b0 k) =
        (if (decide (0 < k) && tolStop step b0 tol k) then
          (bAt step b0 (k + 1), false)
        else if (decide (0 < k) && incStop step b0 k) then
          (bAt step b0 (k + 1), true)
        else dbaIter step tol n (prevCost step b0 (k + 1))
          (bAt step b0 (k + 1))) := by
      rw [show dbaIter step tol (n + 1) (prevCost step b0 k)
          (bAt step b0 k) =
          (if condTol (prevCost step b0 k) (cAt step b0 k) tol then
            (bAt step b0 (k + 1), false)
          else if condInc (prevCost step b0 k) (cAt step b0 k) then
            (bAt step b0 (k + 1), true)
          else dbaIter step tol n (prevCost step b0 (k + 1))
            (bAt step b0 (k + 1))) from rfl,
        condTol_prevCost, condInc_prevCost]
    rw [hstep]
    rcases hst : stopsAt step b0 tol k with _ | _
    · have hk : (decide (0 < k) &&
          (tolStop step b0 tol k || incStop step b0 k)) = false :=
        (stopsAt_eq step b0 tol k).symm.trans hst
      have h1 : (decide (0 < k) && tolStop step b0 tol k) = false := by
        rcases hd : decide (0 < k) <;>
          rcases ht : tolStop step b0 tol k <;>
            simp_all
      have h2 : (decide (0 < k) && incStop step b0 k) = false := by
        rcases hd : decide (0 < k) <;>
          rcases hi : incStop step b0 k <;>
            simp_all
      rw [h1, h2]
      simp only [Bool.false_eq_true, if_false]
      rw [ih (k + 1), List.find?_cons_of_neg _ (by simp [hst]),
        show k + 1 + n = k + (n + 1) by omega]
    · rw [List.find?_cons_of_pos _ hst]
      have hk : (decide (0 < k) &&
          (tolStop step b0 tol k || incStop step b0 k)) = true :=
        (stopsAt_eq step b0 tol k).symm.trans hst
      have hk0 : decide (0 < k) = true := by
        rcases hd : decide (0 < k)
        · rw [hd] at hk; simp at hk
        · rfl
      by_cases h1 : tolStop step b0 tol k = true
      · rw [hk0, h1]
        simp [h1]
      · have h1f : tolStop step b0 tol k = false := by
          rcases hb : tolStop step b0 tol k
          · rfl
          · exact absurd hb h1
        have h2 : incStop step b0 k = true := by
          rw [hk0, h1f] at hk
          simpa using hk
        rw [hk0, h1f, h2]
        simp [h1f]

/-- The loop as called by both engines (full budget, infinite previous
cost, seed barycenter) equals its declarative description. -/
lemma dbaIter_eq_declarative (step : PSeries → ℚ × PSeries) (tol : ℚ)
    (m : ℕ) (b0 : PSeries) :
    dbaIter step tol m none b0 = dbaDeclarative step tol m b0 := by
  have h := dbaIter_trace step tol b0 m 0
  rw [show prevCost step b0 0 = (none : Option ℚ) from rfl,
    show bAt step b0 0 = b0 from rfl,
    show (List.range m).map (fun i => i + 0) = List.range m by simp,
    show 0 + m = m from Nat.zero_add m] at h
  rw [h]
  rfl

/-! ## Claim C8: weight validation -/

/-- C8: `_set_weights(w, n)` returns a vector of `n` ones whenever `w`
is absent (`None`) or has length different from `n` — silently, as a
total function — and returns the provided weight vector of length `n`
otherwise. -/
theorem set_weights_fallback (w : List ℚ) (n : ℕ) :
    _set_weights none n = List.replicate n 1 ∧
    (w.length ≠ n → _set_weights (some w) n = List.replicate n 1) ∧
    (w.length = n → _set_weights (some w) n = w) := by
  refine ⟨rfl, fun h => ?_, fun h => ?_⟩ <;> simp [_set_weights, h]

/-- Witness for C8 at concrete inputs. -/
theorem set_weights_fallback_witness :
    _set_weights (some [2, 3]) 2 = [2, 3] :=
  (set_weights_fallback [2, 3] 2).2.2 rfl

/-! ## Claim C2: the stopping policy of both DBA engines -/

/-- C2: for both DBA engines and every input, the iteration loop is the
declarative first-stop search: it terminates at the first iteration
where `|previous_cost - cost| < tol` (convergence, no warning), or where
the cost strictly increased (a convergence warning — the boolean — is
emitted and the current barycenter returned); otherwise it runs at most
`max_iter` iterations. -/
theorem dba_stop_policy (dtw : DTWOracle) (X : List PSeries)
    (bsz : Option ℕ) (init : Option PSeries) (max_iter : ℤ) (tol : ℚ)
    (w : Option (List ℚ)) :
    dtw_barycenter_averaging_petitjean dtw X bsz init max_iter tol w =
      dbaDeclarative (petitjeanEngineStep dtw X bsz init w) tol
        max_iter.toNat (dbaSeed X bsz init w) ∧
    dtw_barycenter_averaging dtw X bsz init max_iter tol w =
      dbaDeclarative (mmEngineStep dtw X bsz init w) tol
        max_iter.toNat (dbaSeed X bsz init w) :=
  ⟨dbaIter_eq_declarative _ _ _ _, dbaIter_eq_declarative _ _ _ _⟩

/-! ## Claim C9: zero (or negative) iteration budget -/

/-- C9: with `max_iter ≤ 0` the loop body of either engine never runs:
both engines return exactly the initial barycenter (the caller-supplied
seed when given, else the initializer's mean profile) with no
convergence warning, independently of the alignment oracle (the
right-hand side mentions no oracle, so no alignment is performed). -/
theorem dba_zero_iterations (dtw1 dtw2 : DTWOracle) (X : List PSeries)
    (bsz : Option ℕ) (init : Option PSeries) (max_iter : ℤ) (tol : ℚ)
    (w : Option (List ℚ)) (h : max_iter ≤ 0) :
    dtw_barycenter_averaging_petitjean dtw1 X bsz init max_iter tol w =
      ((match init with
        | some b => b
        | none => _init_avg (to_time_series_dataset X)
            (bsz.getD (shape1 (to_time_series_dataset X)))), false) ∧
    dtw_barycenter_averaging dtw2 X bsz init max_iter tol w =
      ((match init with
        | some b => b
        | none => _init_avg (to_time_series_dataset X)
            (bsz.getD (shape1 (to_time_series_dataset X)))), false) := by
  have h0 : max_iter.toNat = 0 := Int.toNat_of_nonpos h
  constructor
  · show dbaIter _ tol max_iter.toNat none (dbaSetup X bsz init w).2.2.2
      = _
    rw [h0]
    show ((dbaSetup X bsz init w).2.2.2, false) = _
    cases init <;> rfl
  · show dbaIter _ tol max_iter.toNat none (dbaSetup X bsz init w).2.2.2
      = _
    rw [h0]
    show ((dbaSetup X bsz init w).2.2.2, false) = _
    cases init <;> rfl

/-- Witness for C9 at concrete inputs. -/
theorem dba_zero_iterations_witness :
    dtw_barycenter_averaging_petitjean dtwTriv tinyX none none (-1) 1
        none =
      (_init_avg (to_time_series_dataset tinyX)
        (shape1 (to_time_series_dataset tinyX)), false) ∧
    dtw_barycenter_averaging dtwTriv tinyX none none (-1) 1 none =
      (_init_avg (to_time_series_dataset tinyX)
        (shape1 (to_time_series_dataset tinyX)), false) :=
  dba_zero_iterations dtwTriv dtwTriv tinyX none none (-1) 1 none
    (by norm_num)

/-! ## Claim C10: the update precedes the stopping test -/

/-- A `find?` over `List.range` returns the least matching index. -/
lemma find?_range_min (p : ℕ → Bool) :
    ∀ m τ, (List.range m).find? p = some τ →
      ∀ k, k < τ → p k = false := by
  intro m
  induction m with
  | zero =>
    intro τ h k hk
    simp at h
  | succ m ih =>
    intro τ h k hk
    rw [List.range_succ, List.find?_append] at h
    rcases hf : (List.range m).find? p with _ | τ'
    · rw [hf] at h
      simp only [Option.none_or] at h
      have hall := List.find?_eq_none.mp hf
      have hτ : τ = m := by
        rcases hpm : p m with _ | _ <;> simp [List.find?, hpm] at h
        exact h.symm
      subst hτ
      have := hall k (List.mem_range.mpr (by omega))
      rcases hb : p k
      · rfl
      · exact absurd hb this
    · rw [hf] at h
      have h' : τ' = τ := Option.some.inj h
      subst h'
      exact ih τ' hf k hk

/-- The loop runs exactly `dbaItersRun` iterations: that count is
positive and within budget, no stopping test fires before the final
executed iteration, the final executed iteration's test fires unless
the budget ran out, and the loop's result is the update output of that
final executed iteration. -/
lemma dbaIter_itersRun (step : PSeries → ℚ × PSeries) (tol : ℚ)
    (m : ℕ) (b0 : PSeries) (hm : 0 < m) :
    0 < dbaItersRun step tol m b0 ∧
    dbaItersRun step tol m b0 ≤ m ∧
    (∀ k, k + 1 < dbaItersRun step tol m b0 →
      stopsAt step b0 tol k = false) ∧
    (stopsAt step b0 tol (dbaItersRun step tol m b0 - 1) = true ∨
      dbaItersRun step tol m b0 = m) ∧
    (dbaIter step tol m none b0).1 =
      (step (bAt step b0 (dbaItersRun step tol m b0 - 1))).2 := by
  rw [dbaIter_eq_declarative]
  rcases hf : (List.range m).find? (stopsAt step b0 tol) with _ | τ
  · have hn : dbaItersRun step tol m b0 = m := by
      rw [dbaItersRun, hf]
    have hd : dbaDeclarative step tol m b0 = (bAt step b0 m, false) :=
      by rw [dbaDeclarative, hf]
    rw [hn, hd]
    refine ⟨hm, le_refl m, ?_, Or.inr rfl, ?_⟩
    · intro k hk
      have := List.find?_eq_none.mp hf k (List.mem_range.mpr (by
        omega))
      rcases hb : stopsAt step b0 tol k
      · rfl
      · exact absurd hb this
    · show bAt step b0 m = (step (bAt step b0 (m - 1))).2
      rw [show m = m - 1 + 1 by omega]
      rfl
  · have hτm : τ < m :=
      List.mem_range.mp (List.mem_of_find?_eq_some hf)
    have hpτ : stopsAt step b0 tol τ = true := List.find?_some hf
    have hn : dbaItersRun step tol m b0 = τ + 1 := by
      rw [dbaItersRun, hf]
    have hd : dbaDeclarative step tol m b0 =
        (bAt step b0 (τ + 1), !tolStop step b0 tol τ) := by
      rw [dbaDeclarative, hf]
    rw [hn, hd]
    exact ⟨by omega, by omega,
      fun k hk => find?_range_min _ m τ hf k (by omega),
      Or.inl hpτ, rfl⟩

/-- C10: in both engines, whenever at least one iteration runs, the
returned barycenter is the output of the final executed iteration's
update step.  `dbaItersRun` is pinned as the loop's iteration count by
the minimality conjuncts: no stopping test fires before the final
executed iteration, and that iteration's test fires unless the budget
was exhausted.  The returned barycenter
`(step (bAt (itersRun − 1))).2` is the update component of the very
step application whose cost component `(step (bAt (itersRun − 1))).1`
is the final cost, evaluated on the pre-update barycenter
`bAt (itersRun − 1)` — i.e. the update is applied before the stopping
test, and the result is one update ahead of the barycenter on which
the final cost was evaluated. -/
theorem dba_update_before_stop (dtw : DTWOracle) (X : List PSeries)
    (bsz : Option ℕ) (init : Option PSeries) (max_iter : ℤ) (tol : ℚ)
    (w : Option (List ℚ)) (h : 1 ≤ max_iter) :
    (0 < dbaItersRun (petitjeanEngineStep dtw X bsz init w) tol
        max_iter.toNat (dbaSeed X bsz init w) ∧
     dbaItersRun (petitjeanEngineStep dtw X bsz init w) tol
        max_iter.toNat (dbaSeed X bsz init w) ≤ max_iter.toNat ∧
     (∀ k, k + 1 < dbaItersRun (petitjeanEngineStep dtw X bsz init w)
        tol max_iter.toNat (dbaSeed X bsz init w) →
       stopsAt (petitjeanEngineStep dtw X bsz init w)
         (dbaSeed X bsz init w) tol k = false) ∧
     (stopsAt (petitjeanEngineStep dtw X bsz init w)
        (dbaSeed X bsz init w) tol
        (dbaItersRun (petitjeanEngineStep dtw X bsz init w) tol
          max_iter.toNat (dbaSeed X bsz init w) - 1) = true ∨
      dbaItersRun (petitjeanEngineStep dtw X bsz init w) tol
        max_iter.toNat (dbaSeed X bsz init w) = max_iter.toNat) ∧
     (dtw_barycenter_averaging_petitjean dtw X bsz init max_iter tol
        w).1 =
       (petitjeanEngineStep dtw X bsz init w
         (bAt (petitjeanEngineStep dtw X bsz init w)
           (dbaSeed X bsz init w)
           (dbaItersRun (petitjeanEngineStep dtw X bsz init w) tol
             max_iter.toNat (dbaSeed X bsz init w) - 1))).2) ∧
    (0 < dbaItersRun (mmEngineStep dtw X bsz init w) tol
        max_iter.toNat (dbaSeed X bsz init w) ∧
     dbaItersRun (mmEngineStep dtw X bsz init w) tol
        max_iter.toNat (dbaSeed X bsz init w) ≤ max_iter.toNat ∧
     (∀ k, k + 1 < dbaItersRun (mmEngineStep dtw X bsz init w) tol
        max_iter.toNat (dbaSeed X bsz init w) →
       stopsAt (mmEngineStep dtw X bsz init w)
         (dbaSeed X bsz init w) tol k = false) ∧
     (stopsAt (mmEngineStep dtw X bsz init w)
        (dbaSeed X bsz init w) tol
        (dbaItersRun (mmEngineStep dtw X bsz init w) tol
          max_iter.toNat (dbaSeed X bsz init w) - 1) = true ∨
      dbaItersRun (mmEngineStep dtw X bsz init w) tol
        max_iter.toNat (dbaSeed X bsz init w) = max_iter.toNat) ∧
     (dtw_barycenter_averaging dtw X bsz init max_iter tol w).1 =
       (mmEngineStep dtw X bsz init w
         (bAt (mmEngineStep dtw X bsz init w) (dbaSeed X bsz init w)
           (dbaItersRun (mmEngineStep dtw X bsz init w) tol
             max_iter.toNat (dbaSeed X bsz init w) - 1))).2) := by
  have hm : 0 < max_iter.toNat := by omega
  constructor
  · obtain ⟨h1, h2, h3, h4, h5⟩ := dbaIter_itersRun
      (petitjeanEngineStep dtw X bsz init w) tol max_iter.toNat
      (dbaSeed X bsz init w) hm
    exact ⟨h1, h2, h3, h4, h5⟩
  · obtain ⟨h1, h2, h3, h4, h5⟩ := dbaIter_itersRun
      (mmEngineStep dtw X bsz init w) tol max_iter.toNat
      (dbaSeed X bsz init w) hm
    exact ⟨h1, h2, h3, h4, h5⟩

/-- Witness for C10 at concrete inputs. -/
theorem dba_update_before_stop_witness :
    (0 < dbaItersRun (petitjeanEngineStep dtwTriv tinyX none none
        none) 1 (1 : ℤ).toNat (dbaSeed tinyX none none none) ∧
     dbaItersRun (petitjeanEngineStep dtwTriv tinyX none none none) 1
        (1 : ℤ).toNat (dbaSeed tinyX none none none) ≤
        (1 : ℤ).toNat ∧
     (∀ k, k + 1 < dbaItersRun (petitjeanEngineStep dtwTriv tinyX
        none none none) 1 (1 : ℤ).toNat
        (dbaSeed tinyX none none none) →
       stopsAt (petitjeanEngineStep dtwTriv tinyX none none none)
         (dbaSeed tinyX none none none) 1 k = false) ∧
     (stopsAt (petitjeanEngineStep dtwTriv tinyX none none none)
        (dbaSeed tinyX none none none) 1
        (dbaItersRun (petitjeanEngineStep dtwTriv tinyX none none
          none) 1 (1 : ℤ).toNat (dbaSeed tinyX none none none) - 1) =
        true ∨
      dbaItersRun (petitjeanEngineStep dtwTriv tinyX none none none)
        1 (1 : ℤ).toNat (dbaSeed tinyX none none none) =
        (1 : ℤ).toNat) ∧
     (dtw_barycenter_averaging_petitjean dtwTriv tinyX none none 1 1
        none).1 =
       (petitjeanEngineStep dtwTriv tinyX none none none
         (bAt (petitjeanEngineStep dtwTriv tinyX none none none)
           (dbaSeed tinyX none none none)
           (dbaItersRun (petitjeanEngineStep dtwTriv tinyX none none
             none) 1 (1 : ℤ).toNat
             (dbaSeed tinyX none none none) - 1))).2) ∧
    (0 < dbaItersRun (mmEngineStep dtwTriv tinyX none none none) 1
        (1 : ℤ).toNat (dbaSeed tinyX none none none) ∧
     dbaItersRun (mmEngineStep dtwTriv tinyX none none none) 1
        (1 : ℤ).toNat (dbaSeed tinyX none none none) ≤
        (1 : ℤ).toNat ∧
     (∀ k, k + 1 < dbaItersRun (mmEngineStep dtwTriv tinyX none none
        none) 1 (1 : ℤ).toNat (dbaSeed tinyX none none none) →
       stopsAt (mmEngineStep dtwTriv tinyX none none none)
         (dbaSeed tinyX none none none) 1 k = false) ∧
     (stopsAt (mmEngineStep dtwTriv tinyX none none none)
        (dbaSeed tinyX none none none) 1
        (dbaItersRun (mmEngineStep dtwTriv tinyX none none none) 1
          (1 : ℤ).toNat (dbaSeed tinyX none none none) - 1) = true ∨
      dbaItersRun (mmEngineStep dtwTriv tinyX none none none) 1
        (1 : ℤ).toNat (dbaSeed tinyX none none none) =
        (1 : ℤ).toNat) ∧
     (dtw_barycenter_averaging dtwTriv tinyX none none 1 1 none).1 =
       (mmEngineStep dtwTriv tinyX none none none
         (bAt (mmEngineStep dtwTriv tinyX none none none)
           (dbaSeed tinyX none none none)
           (dbaItersRun (mmEngineStep dtwTriv tinyX none none none) 1
             (1 : ℤ).toNat (dbaSeed tinyX none none none) - 1))).2) :=
  dba_update_before_stop dtwTriv tinyX none none 1 1 none (by
    norm_num)

/-! ## Claim C6: barycenter size precedence -/

lemma length_linspace01 (m : ℕ) : (linspace01 m).length = m := by
  rw [linspace01, List.length_map, List.length_range]

lemma length_interp_linear (ys : List Sample) (m : ℕ) :
    (interp_linear ys m).length = m := by
  rw [interp_linear, List.length_map, length_linspace01]

lemma length_nanmean0 (X_ : List PSeries) :
    (nanmean0 X_).length = shape1 X_ := by
  simp [nanmean0]

lemma length_init_avg (X_ : List PSeries) (m : ℕ) :
    (_init_avg X_ m).length = m := by
  unfold _init_avg
  split
  · rename_i hsz
    rw [length_nanmean0, hsz]
  · rw [List.length_map, length_interp_linear]

lemma length_petitjean_update (d : ℕ) (X_ : List PSeries)
    (assign : List (List ℕ) × List (List ℕ)) (bsz : ℕ)
    (weights : List ℚ) :
    (_petitjean_update_barycenter d X_ assign bsz weights).length =
      bsz := by
  simp [_petitjean_update_barycenter]

lemma length_foldl_mset (path : Path) :
    ∀ m : List (List ℚ),
      (path.foldl (fun m pr => mset m pr.1 pr.2 1) m).length =
        m.length := by
  induction path with
  | nil => intro m; rfl
  | cons pr rest ih =>
    intro m
    rw [List.foldl_cons, ih]
    simp [mset]

lemma length_mrowsums (m : List (List ℚ)) : (mrowsums m).length = m.length := by
  simp [mrowsums]

lemma length_mscale (c : ℚ) (m : List (List ℚ)) :
    (mscale c m).length = m.length := by
  simp [mscale]

/-- Both components of the valence/warping accumulator keep row count
`barycenter_size` along the fold. -/
lemma foldl_valence_lengths (bsz : ℕ) (weights : List ℚ)
    (g : ℕ × Path → List (List ℚ)) (hg : ∀ kp, (g kp).length = bsz) :
    ∀ (l : List (ℕ × Path)) (acc : List ℚ × List (List (List ℚ))),
      acc.1.length = bsz → (∀ mm ∈ acc.2, mm.length = bsz) →
      ((l.foldl (fun acc kp =>
          (vadd acc.1 (vsmul (weights.getD kp.1 0) (mrowsums (g kp))),
           acc.2 ++ [mscale (weights.getD kp.1 0) (g kp)])) acc).1.length
        = bsz ∧
       ∀ mm ∈ (l.foldl (fun acc kp =>
          (vadd acc.1 (vsmul (weights.getD kp.1 0) (mrowsums (g kp))),
           acc.2 ++ [mscale (weights.getD kp.1 0) (g kp)])) acc).2,
         mm.length = bsz) := by
  intro l
  induction l with
  | nil => intro acc h1 h2; exact ⟨h1, h2⟩
  | cons kp rest ih =>
    intro acc h1 h2
    rw [List.foldl_cons]
    refine ih _ ?_ ?_
    · rw [length_vadd, h1, length_vsmul, length_mrowsums, hg, min_self]
    · intro mm hmm
      rcases List.mem_append.mp hmm with hmm | hmm
      · exact h2 mm hmm
      · rw [List.mem_singleton.mp hmm, length_mscale, hg]

lemma mm_valence_lengths (list_p_k : List Path) (bsz : ℕ)
    (weights : List ℚ) :
    (_mm_valence_warping list_p_k bsz weights).1.length = bsz ∧
    ∀ mm ∈ (_mm_valence_warping list_p_k bsz weights).2,
      mm.length = bsz := by
  have hg : ∀ kp : ℕ × Path,
      ((kp.2.foldl (fun m pr => mset m pr.1 pr.2 1)
        (mzeros bsz ((kp.2.getLastD (0, 0)).2 + 1)))).length = bsz := by
    intro kp
    rw [length_foldl_mset]
    simp [mzeros]
  exact foldl_valence_lengths bsz weights
    (fun kp => kp.2.foldl (fun m pr => mset m pr.1 pr.2 1)
      (mzeros bsz ((kp.2.getLastD (0, 0)).2 + 1))) hg
    list_p_k.enum (List.replicate bsz 0, [])
    (by simp) (by simp)

lemma length_matvec (d : ℕ) (m : List (List ℚ)) (xs : List Sample) :
    (matvec d m xs).length = m.length := by
  simp [matvec]

lemma foldl_sumwx_length (d : ℕ) (bsz : ℕ) :
    ∀ (l : List (List (List ℚ) × PSeries)) (acc : List Sample),
      acc.length = bsz → (∀ p ∈ l, p.1.length = bsz) →
      (l.foldl (fun acc wx => List.zipWith vadd acc
        (matvec d wx.1 ((wx.2.take (ts_size wx.2)).map
          (fun r => r.getD (vzero d))))) acc).length = bsz := by
  intro l
  induction l with
  | nil => intro acc h1 _; exact h1
  | cons wx rest ih =>
    intro acc h1 h2
    rw [List.foldl_cons]
    refine ih _ ?_ ?_
    · rw [List.length_zipWith, h1, length_matvec,
        h2 wx (List.mem_cons_self wx rest), min_self]
    · intro p hp
      exact h2 p (List.mem_cons_of_mem wx hp)

lemma length_mm_update (X_ : List PSeries) (dsv : List ℚ)
    (lwk : List (List (List ℚ)))
    (h : ∀ mm ∈ lwk, mm.length = dsv.length) :
    (_mm_update_barycenter X_ dsv lwk).length = dsv.length := by
  unfold _mm_update_barycenter
  rw [List.length_map, List.length_zipWith]
  rw [foldl_sumwx_length (dsdim X_) dsv.length (List.zip lwk X_)
    (List.replicate dsv.length (vzero (dsdim X_))) (by simp)
    (fun p hp => h p.1 (List.of_mem_zip hp).1), min_self]

lemma mmStep_length (dtw : DTWOracle) (X_ : List PSeries)
    (weights : List ℚ) (bsz : ℕ) (b : PSeries) :
    ((mmStep dtw X_ weights bsz b).2).length = bsz := by
  unfold mmStep
  simp only
  obtain ⟨h1, h2⟩ := mm_valence_lengths
    (_mm_assignment dtw X_ b weights).1 bsz weights
  rw [length_mm_update _ _ _ (by rw [h1]; exact h2), h1]

lemma petitjeanStep_length (dtw : DTWOracle) (X_ : List PSeries)
    (weights : List ℚ) (bsz : ℕ) (b : PSeries) :
    ((petitjeanStep dtw X_ weights bsz b).2).length = bsz := by
  unfold petitjeanStep
  simp only
  exact length_petitjean_update _ _ _ _ _

lemma dbaIter_length (step : PSeries → ℚ × PSeries) (tol : ℚ) (L : ℕ)
    (hstep : ∀ b, ((step b).2).length = L) :
    ∀ (n : ℕ) (cp : Option ℚ) (b : PSeries), b.length = L →
      ((dbaIter step tol n cp b).1).length = L := by
  intro n
  induction n with
  | zero => intro cp b hb; exact hb
  | succ n ih =>
    intro cp b hb
    show (if condTol cp (step b).1 tol then ((step b).2, false)
      else if condInc cp (step b).1 then ((step b).2, true)
      else dbaIter step tol n (some (step b).1) (step b).2).1.length = L
    split
    · exact hstep b
    · split
      · exact hstep b
      · exact ih _ _ (hstep b)

lemma dbaSetup_bsz (X : List PSeries) (bsz : Option ℕ)
    (init : Option PSeries) (w : Option (List ℚ)) :
    (dbaSetup X bsz init w).2.2.1 =
      (match init with
       | some b => b.length
       | none => bsz.getD (shape1 (to_time_series_dataset X))) := by
  cases init <;> rfl

lemma dbaSeed_length (X : List PSeries) (bsz : Option ℕ)
    (init : Option PSeries) (w : Option (List ℚ)) :
    (dbaSeed X bsz init w).length = (dbaSetup X bsz init w).2.2.1 := by
  cases init with
  | none =>
    show (_init_avg (to_time_series_dataset X)
      (bsz.getD (shape1 (to_time_series_dataset X)))).length = _
    rw [length_init_avg]
    rfl
  | some b => rfl

/-- C6: for both DBA engines the returned barycenter has exactly the
number of positions given by the precedence: the caller-provided
initial barycenter's length when one is given (overriding any requested
size), else the requested `barycenter_size`, else the dataset's native
padded length. -/
theorem dba_size_precedence (dtw : DTWOracle) (X : List PSeries)
    (bsz : Option ℕ) (init : Option PSeries) (max_iter : ℤ) (tol : ℚ)
    (w : Option (List ℚ)) :
    ((dtw_barycenter_averaging_petitjean dtw X bsz init max_iter tol
        w).1).length =
      (match init with
       | some b => b.length
       | none => bsz.getD (shape1 (to_time_series_dataset X))) ∧
    ((dtw_barycenter_averaging dtw X bsz init max_iter tol
        w).1).length =
      (match init with
       | some b => b.length
       | none => bsz.getD (shape1 (to_time_series_dataset X))) := by
  rw [← dbaSetup_bsz X bsz init w]
  constructor
  · show ((dbaIter (petitjeanStep dtw (dbaSetup X bsz init w).1
      (dbaSetup X bsz init w).2.1 (dbaSetup X bsz init w).2.2.1) tol
      max_iter.toNat none (dbaSetup X bsz init w).2.2.2).1).length = _
    exact dbaIter_length _ tol _ (petitjeanStep_length dtw _ _ _) _ _ _
      (dbaSeed_length X bsz init w)
  · show ((dbaIter (mmStep dtw (dbaSetup X bsz init w).1
      (dbaSetup X bsz init w).2.1 (dbaSetup X bsz init w).2.2.1) tol
      max_iter.toNat none (dbaSetup X bsz init w).2.2.2).1).length = _
    exact dbaIter_length _ tol _ (mmStep_length dtw _ _ _) _ _ _
      (dbaSeed_length X bsz init w)

/-! ## Generic access lemmas -/

lemma getD_mem' {l : List PSample} {n : ℕ} (h : n < l.length) :
    l.getD n none ∈ l := by
  rw [List.getD, List.get?_eq_getElem?, List.getElem?_eq_getElem h]
  exact List.getElem_mem h

lemma getD_map_range {α : Type} (f : ℕ → α) (dflt : α) (n t : ℕ)
    (h : t < n) : ((List.range n).map f).getD t dflt = f t := by
  rw [List.getD, List.get?_eq_getElem?, List.getElem?_map,
    List.getElem?_range h]
  rfl

lemma mem_zipWith_imp {α β γ : Type} {f : α → β → γ} :
    ∀ {l₁ : List α} {l₂ : List β} {c : γ},
      c ∈ List.zipWith f l₁ l₂ → ∃ a b, a ∈ l₁ ∧ b ∈ l₂ ∧ c = f a b := by
  intro l₁
  induction l₁ with
  | nil => intro l₂ c hc; simp at hc
  | cons x xs ih =>
    intro l₂ c hc
    cases l₂ with
    | nil => simp at hc
    | cons y ys =>
      rcases List.mem_cons.mp hc with hc | hc
      · exact ⟨x, y, List.mem_cons_self x xs, List.mem_cons_self y ys,
          hc⟩
      · obtain ⟨a, b, ha, hb, he⟩ := ih hc
        exact ⟨a, b, List.mem_cons_of_mem x ha,
          List.mem_cons_of_mem y hb, he⟩

lemma length_le_maxLen {X : List PSeries} {s : PSeries} (h : s ∈ X) :
    s.length ≤ maxLen X := by
  induction X with
  | nil => simp at h
  | cons x xs ih =>
    rcases List.mem_cons.mp h with h | h
    · subst h
      exact le_max_left _ _
    · exact le_trans (ih h) (le_max_right _ _)

lemma maxLen_of_equal {X : List PSeries} {sz : ℕ} (hne : X ≠ [])
    (hlen : ∀ s ∈ X, s.length = sz) : maxLen X = sz := by
  induction X with
  | nil => exact absurd rfl hne
  | cons x xs ih =>
    have hx : x.length = sz := hlen x (List.mem_cons_self x xs)
    by_cases hxs : xs = []
    · subst hxs
      simp [maxLen, hx]
    · have := ih hxs (fun s hs => hlen s (List.mem_cons_of_mem x hs))
      show max x.length (maxLen xs) = sz
      rw [hx, this, max_self]

lemma ttsd_of_equal {X : List PSeries} {sz : ℕ} (hne : X ≠ [])
    (hlen : ∀ s ∈ X, s.length = sz) :
    to_time_series_dataset X = X := by
  show X.map (fun s => s ++ List.replicate (maxLen X - s.length) none)
    = X
  rw [maxLen_of_equal hne hlen]
  have : ∀ s ∈ X, s ++ List.replicate (sz - s.length) none = s := by
    intro s hs
    rw [hlen s hs, Nat.sub_self, List.replicate_zero, List.append_nil]
  calc X.map (fun s => s ++ List.replicate (sz - s.length) none)
      = X.map id := List.map_congr_left this
    _ = X := List.map_id X

lemma length_euclidean (X : List PSeries) (w : Option (List ℚ)) :
    (euclidean_barycenter X w).length =
      shape1 (to_time_series_dataset X) := by
  simp [euclidean_barycenter]

lemma euclidean_getD (X : List PSeries) (w : Option (List ℚ)) (t : ℕ)
    (ht : t < shape1 (to_time_series_dataset X)) :
    (euclidean_barycenter X w).getD t none =
      npAverage (dsdim (to_time_series_dataset X))
        ((to_time_series_dataset X).map (fun s => s.getD t none))
        (_set_weights w (to_time_series_dataset X).length) := by
  show ((List.range (shape1 (to_time_series_dataset X))).map _).getD t
    none = _
  rw [getD_map_range _ _ _ _ ht]

/-! ## Claim C5: Soft-DTW with zero iterations -/

/-- C5: `softdtw_barycenter` called with `max_iter = 0` returns the
seed unchanged, skipping the optimizer entirely (the right-hand sides
never mention the `opt` oracle); without an explicit `init` the seed is
the Euclidean barycenter of the dataset, taken after resampling all
series to the common length when the series lengths differ. -/
theorem softdtw_zero_iterations (opt : PSeries → PSeries)
    (X : List PSeries) (w : Option (List ℚ)) (init : Option PSeries) :
    (∀ b, init = some b → softdtw_barycenter opt X w 0 init = b) ∧
    (init = none → softdtw_barycenter opt X w 0 init =
      (if check_equal_size (to_time_series_dataset X) then
        euclidean_barycenter (to_time_series_dataset X)
          (some (_set_weights w (to_time_series_dataset X).length))
      else
        euclidean_barycenter
          (resampleDataset (to_time_series_dataset X))
          (some (_set_weights w (to_time_series_dataset X).length)))) := by
  constructor
  · intro b hb
    subst hb
    rfl
  · intro hb
    subst hb
    rfl

/-- Witness for C5 at concrete inputs. -/
theorem softdtw_zero_iterations_witness :
    softdtw_barycenter (fun _ => []) tinyX none 0 (some [some [5]]) =
      [some [5]] :=
  (softdtw_zero_iterations (fun _ => []) tinyX none
    (some [some [5]])).1 [some [5]] rfl

/-! ## Claim C7: unequal-length input to the Euclidean averager -/

/-- C7 counterexample: on a concrete dataset of unequal-length series
`euclidean_barycenter` does not fail — it returns a value (whose padded
position is the NaN row `none`), refuting the claim that an input-shape
error is signalled. -/
theorem euclidean_unequal_counterexample :
    euclidean_barycenter raggedX none = [some [1], some [2], none] := by
  simp only [euclidean_barycenter, raggedX, to_time_series_dataset,
    maxLen, shape1, dsdim, npAverage, _set_weights, ssum, vsum, vadd,
    vsmul, vzero, entry]
  norm_num
  simp [List.range_succ, ssum]
  simp [vadd, vsmul]
  norm_num

/-- The packed dataset's common row count is the raw maximal length. -/
lemma shape1_ttsd (X : List PSeries) :
    shape1 (to_time_series_dataset X) = maxLen X := by
  cases X with
  | nil => rfl
  | cons x xs =>
    have hx : x.length ≤ maxLen (x :: xs) :=
      length_le_maxLen (List.mem_cons_self x xs)
    show (List.headD (List.map (fun s =>
        s ++ List.replicate (maxLen (x :: xs) - s.length) none)
        (x :: xs)) []).length = maxLen (x :: xs)
    rw [List.map_cons, List.headD_cons, List.length_append,
      List.length_replicate]
    omega

/-- C7 amended: for every dataset containing series of unequal
lengths, `euclidean_barycenter` returns a value (no error is
signalled): an array of the dataset's maximal length in which *every*
position lying beyond some shorter series' extent — any `t` with
`s.length ≤ t < maxLen X` for some `s ∈ X` — holds the NaN row
`none`. -/
theorem euclidean_unequal_returns_nan (X : List PSeries)
    (w : Option (List ℚ)) (t : ℕ) (s : PSeries) (hs : s ∈ X)
    (hle : s.length ≤ t) (hlt : t < maxLen X) :
    (euclidean_barycenter X w).length = maxLen X ∧
    (euclidean_barycenter X w).getD t none = none := by
  have hsmax : s.length ≤ maxLen X := length_le_maxLen hs
  constructor
  · rw [length_euclidean, shape1_ttsd]
  · rw [euclidean_getD X w t (by rw [shape1_ttsd]; exact hlt)]
    have hpadmem : s ++ List.replicate (maxLen X - s.length) none ∈
        to_time_series_dataset X := List.mem_map_of_mem _ hs
    have hnone : (s ++ List.replicate (maxLen X - s.length)
        none).getD t none = none := by
      rw [List.getD, List.get?_eq_getElem?]
      rcases hel : (s ++ List.replicate (maxLen X - s.length)
          none)[t]? with _ | r
      · rfl
      · rw [List.getElem?_append_right hle] at hel
        rw [List.getElem?_eq_getElem (by
          rw [List.length_replicate]; omega)] at hel
        simp only [List.getElem_replicate] at hel
        simp [← hel]
    have hm := List.mem_map_of_mem
      (fun s : PSeries => s.getD t none) hpadmem
    have hm2 : (s ++ List.replicate (maxLen X - s.length)
        none).getD t none ∈
        (to_time_series_dataset X).map
          (fun s => s.getD t none) := hm
    rw [hnone] at hm2
    rw [npAverage, if_neg]
    intro hall
    have := (List.all_eq_true.mp hall) none hm2
    simp at this

/-- Witness for the amended C7 at concrete inputs. -/
theorem euclidean_unequal_returns_nan_witness :
    (euclidean_barycenter raggedX none).length = maxLen raggedX ∧
    (euclidean_barycenter raggedX none).getD 2 none = none :=
  euclidean_unequal_returns_nan raggedX none 2 [some [1], some [2]]
    (by simp [raggedX]) (by simp) (by decide)

/-! ## Claim C3: the Euclidean barycenter is the pointwise weighted mean -/

/-- C3: on a dataset of `n` equal-length series of shape `(n, sz, d)`
with a valid weight vector, `euclidean_barycenter` returns an array of
shape `(sz, d)` whose value at every time index `t` and dimension `j`
is `Σᵢ wᵢ · Xᵢ[t][j] / Σᵢ wᵢ`. -/
theorem euclidean_weighted_mean (X : List PSeries) (w : List ℚ)
    (sz d : ℕ) (hX : X ≠ [])
    (hlen : ∀ s ∈ X, s.length = sz)
    (hrows : ∀ s ∈ X, ∀ r ∈ s, ∃ v, r = some v ∧ v.length = d)
    (hw : w.length = X.length) :
    (euclidean_barycenter X (some w)).length = sz ∧
    ∀ t, t < sz → ∃ v,
      (euclidean_barycenter X (some w)).getD t none = some v ∧
      v.length = d ∧
      ∀ j, entry v j = weightedMeanEntry X w t j := by
  have hpad := ttsd_of_equal hX hlen
  have hshape : shape1 X = sz := by
    cases X with
    | nil => exact absurd rfl hX
    | cons s0 X' => exact hlen s0 (List.mem_cons_self s0 X')
  have hwset : _set_weights (some w) X.length = w := by
    simp [_set_weights, hw]
  have heuclid : euclidean_barycenter X (some w) =
      (List.range sz).map (fun t => npAverage (dsdim X)
        (X.map (fun s => s.getD t none)) w) := by
    show (List.range (shape1 (to_time_series_dataset X))).map
      (fun t => npAverage (dsdim (to_time_series_dataset X))
        ((to_time_series_dataset X).map (fun s => s.getD t none))
        (_set_weights (some w) (to_time_series_dataset X).length)) = _
    rw [hpad, hshape, hwset]
  constructor
  · rw [heuclid, List.length_map, List.length_range]
  · intro t ht
    have hdsdim : dsdim X = d := by
      cases X with
      | nil => exact absurd rfl hX
      | cons s0 X' =>
        have hs0len : s0.length = sz :=
          hlen s0 (List.mem_cons_self s0 X')
        have hs0ne : s0 ≠ [] := by
          intro hc
          rw [hc] at hs0len
          simp at hs0len
          omega
        obtain ⟨r0, s0', hs0⟩ := List.exists_cons_of_ne_nil hs0ne
        obtain ⟨v0, hr0, hv0len⟩ := hrows s0
          (List.mem_cons_self s0 X') r0
          (by rw [hs0]; exact List.mem_cons_self r0 s0')
        have hfm : s0.filterMap id = v0 :: s0'.filterMap id := by
          rw [hs0, hr0]
          simp [List.filterMap_cons]
        show (((List.map (fun s => s.filterMap id) (s0 :: X')).foldr
          (· ++ ·) []).headD []).length = d
        rw [List.map_cons, List.foldr_cons, hfm, List.cons_append,
          List.headD_cons]
        exact hv0len
    have hrowlen : ∀ b ∈ (X.map (fun s => s.getD t none)).map
        (fun r => r.getD []), b.length = d := by
      intro b hb
      obtain ⟨r, hr, hbr⟩ := List.mem_map.mp hb
      obtain ⟨s, hs, hrs⟩ := List.mem_map.mp hr
      have hin : s.getD t none ∈ s := getD_mem' (by
        rw [hlen s hs]; exact ht)
      obtain ⟨v, hv, hvlen⟩ := hrows s hs _ hin
      rw [← hbr, ← hrs, hv]
      exact hvlen
    have hzip : ∀ y ∈ List.zipWith vsmul w
        ((X.map (fun s => s.getD t none)).map (fun r => r.getD [])),
        y.length = d := by
      intro y hy
      obtain ⟨a, b, _, hb, hy'⟩ := mem_zipWith_imp hy
      rw [hy', length_vsmul]
      exact hrowlen b hb
    have hall : (X.map (fun s => s.getD t none)).all
        (fun r => r.isSome) = true := by
      rw [List.all_eq_true]
      intro r hr
      obtain ⟨s, hs, hrs⟩ := List.mem_map.mp hr
      have hin : s.getD t none ∈ s := getD_mem' (by
        rw [hlen s hs]; exact ht)
      obtain ⟨v, hv, _⟩ := hrows s hs _ hin
      rw [← hrs, hv]
      rfl
    have hgd : (euclidean_barycenter X (some w)).getD t none =
        npAverage d (X.map (fun s => s.getD t none)) w := by
      rw [heuclid, getD_map_range _ _ _ _ ht, hdsdim]
    rw [npAverage, if_pos hall] at hgd
    refine ⟨_, hgd, ?_, ?_⟩
    · rw [length_vsmul, length_vsum d _ hzip]
    · intro j
      rw [entry_vsmul, entry_vsum d _ hzip, List.map_zipWith,
        List.map_map, List.zipWith_map_right]
      simp only [Function.comp, entry_vsmul]
      rw [weightedMeanEntry, one_div_mul_eq_div]

/-- Witness for C3 at concrete inputs. -/
theorem euclidean_weighted_mean_witness :
    (euclidean_barycenter tinyX (some [3, 1])).length = 1 ∧
    ∀ t, t < 1 → ∃ v,
      (euclidean_barycenter tinyX (some [3, 1])).getD t none = some v ∧
      v.length = 1 ∧
      ∀ j, entry v j = weightedMeanEntry tinyX [3, 1] t j :=
  euclidean_weighted_mean tinyX [3, 1] 1 1 (by simp [tinyX])
    (by
      intro s hs
      simp only [tinyX, List.mem_cons, List.not_mem_nil, or_false]
        at hs
      rcases hs with h | h <;> subst h <;> rfl)
    (by
      intro s hs r hr
      simp only [tinyX, List.mem_cons, List.not_mem_nil, or_false]
        at hs
      rcases hs with h | h <;> subst h <;>
        · simp only [List.mem_cons, List.not_mem_nil, or_false] at hr
          subst hr
          exact ⟨_, rfl, rfl⟩)
    (by simp [tinyX])

/-! ## Claim C4: the Petitjean update is the bucket weighted mean -/

lemma appendAt_length (l : List (List ℕ)) (idx v : ℕ) :
    (appendAt l idx v).length = l.length := by
  simp [appendAt]

lemma appendAt_getD (l : List (List ℕ)) (idx v t : ℕ)
    (h : idx < l.length) :
    (appendAt l idx v).getD t [] =
      if idx = t then l.getD t [] ++ [v] else l.getD t [] := by
  unfold appendAt
  rw [List.getD, List.get?_set_of_lt' _ l h]
  by_cases he : idx = t
  · subst he
    rw [if_pos rfl, if_pos rfl]
    rfl
  · rw [if_neg he, if_neg he]
    rfl

lemma getD_replicate_nil (L t : ℕ) :
    (List.replicate L ([] : List ℕ)).getD t [] = [] := by
  rw [List.getD, List.get?_eq_getElem?, List.getElem?_replicate]
  split <;> rfl

/-- Characterization of the inner assignment fold over one warping
path: bucket `t` receives, in path order, the series index `i` (first
component) and the series positions (second component) of exactly the
pairs aligned to `t`. -/
lemma pj_inner (i : ℕ) (L : ℕ) :
    ∀ (path : Path) (a : List (List ℕ) × List (List ℕ)),
      a.1.length = L → a.2.length = L →
      (∀ pr ∈ path, pr.2 < L) → ∀ t : ℕ,
      ((path.foldl (fun a pr =>
          (appendAt a.1 pr.2 i, appendAt a.2 pr.2 pr.1)) a).1.getD t []
        = a.1.getD t [] ++
          ((path.filter (fun pr => pr.2 = t)).map (fun _ => i)) ∧
       (path.foldl (fun a pr =>
          (appendAt a.1 pr.2 i, appendAt a.2 pr.2 pr.1)) a).2.getD t []
        = a.2.getD t [] ++
          ((path.filter (fun pr => pr.2 = t)).map (fun pr => pr.1)) ∧
       (path.foldl (fun a pr =>
          (appendAt a.1 pr.2 i, appendAt a.2 pr.2 pr.1)) a).1.length = L
       ∧
       (path.foldl (fun a pr =>
          (appendAt a.1 pr.2 i, appendAt a.2 pr.2 pr.1)) a).2.length =
         L) := by
  intro path
  induction path with
  | nil =>
    intro a h1 h2 _ t
    exact ⟨by simp, by simp, h1, h2⟩
  | cons pr rest ih =>
    intro a h1 h2 hb t
    have hpr : pr.2 < L := hb pr (List.mem_cons_self pr rest)
    have hrest : ∀ q ∈ rest, q.2 < L :=
      fun q hq => hb q (List.mem_cons_of_mem pr hq)
    rw [List.foldl_cons]
    obtain ⟨ih1, ih2, ih3, ih4⟩ := ih
      (appendAt a.1 pr.2 i, appendAt a.2 pr.2 pr.1)
      (by rw [appendAt_length]; exact h1)
      (by rw [appendAt_length]; exact h2) hrest t
    refine ⟨?_, ?_, ih3, ih4⟩
    · rw [ih1]
      show (appendAt a.1 pr.2 i).getD t [] ++ _ = _
      rw [appendAt_getD _ _ _ _ (by rw [h1]; exact hpr)]
      by_cases hprt : pr.2 = t
      · rw [if_pos hprt, List.filter_cons_of_pos (by simp [hprt]),
          List.map_cons, List.append_assoc, List.singleton_append]
      · rw [if_neg hprt, List.filter_cons_of_neg (by simp [hprt])]
    · rw [ih2]
      show (appendAt a.2 pr.2 pr.1).getD t [] ++ _ = _
      rw [appendAt_getD _ _ _ _ (by rw [h2]; exact hpr)]
      by_cases hprt : pr.2 = t
      · rw [if_pos hprt, List.filter_cons_of_pos (by simp [hprt]),
          List.map_cons, List.append_assoc, List.singleton_append]
      · rw [if_neg hprt, List.filter_cons_of_neg (by simp [hprt])]

/-- Characterization of the outer assignment fold over the series
indices. -/
lemma pj_outer (dtw : DTWOracle) (X_ : List PSeries)
    (barycenter : PSeries) (L : ℕ) :
    ∀ (idxs : List ℕ) (a : List (List ℕ) × List (List ℕ)),
      a.1.length = L → a.2.length = L →
      (∀ i ∈ idxs, ∀ pr ∈ (dtw (X_.getD i []) barycenter).1,
        pr.2 < L) →
      ∀ t : ℕ,
      ((idxs.foldl (fun assign i =>
          (dtw (X_.getD i []) barycenter).1.foldl (fun a pr =>
            (appendAt a.1 pr.2 i, appendAt a.2 pr.2 pr.1)) assign)
          a).1.getD t []
        = a.1.getD t [] ++
          ((idxs.map (fun i =>
            (((dtw (X_.getD i []) barycenter).1.filter
              (fun pr => pr.2 = t)).map (fun _ => i)))).foldr
            (· ++ ·) []) ∧
       (idxs.foldl (fun assign i =>
          (dtw (X_.getD i []) barycenter).1.foldl (fun a pr =>
            (appendAt a.1 pr.2 i, appendAt a.2 pr.2 pr.1)) assign)
          a).2.getD t []
        = a.2.getD t [] ++
          ((idxs.map (fun i =>
            (((dtw (X_.getD i []) barycenter).1.filter
              (fun pr => pr.2 = t)).map (fun pr => pr.1)))).foldr
            (· ++ ·) [])) := by
  intro idxs
  induction idxs with
  | nil =>
    intro a _ _ _ t
    exact ⟨by simp, by simp⟩
  | cons i rest ih =>
    intro a h1 h2 hb t
    have hi := hb i (List.mem_cons_self i rest)
    have hrest : ∀ i' ∈ rest, ∀ pr ∈ (dtw (X_.getD i' [])
        barycenter).1, pr.2 < L :=
      fun i' hi' => hb i' (List.mem_cons_of_mem i hi')
    rw [List.foldl_cons]
    obtain ⟨j1, j2, j3, j4⟩ := pj_inner i L
      (dtw (X_.getD i []) barycenter).1 a h1 h2 hi t
    obtain ⟨k1, k2⟩ := ih _ j3 j4 hrest t
    constructor
    · rw [k1, j1, List.map_cons, List.foldr_cons, List.append_assoc]
    · rw [k2, j2, List.map_cons, List.foldr_cons, List.append_assoc]

lemma map_foldr_append {α β : Type} (g : α → β) :
    ∀ ls : List (List α),
      (ls.foldr (· ++ ·) []).map g =
        (ls.map (List.map g)).foldr (· ++ ·) [] := by
  intro ls
  induction ls with
  | nil => rfl
  | cons x xs ih => simp [List.foldr_cons, List.map_append, ih]

lemma zipWith_map_same {α γ δ ε : Type} (f : α → γ) (g : α → δ)
    (h : γ → δ → ε) :
    ∀ l : List α,
      List.zipWith h (l.map f) (l.map g) =
        l.map (fun x => h (f x) (g x)) := by
  intro l
  induction l with
  | nil => rfl
  | cons x xs ih => simp [ih]

/-- The assignment buckets equal the spec-side bucket description. -/
lemma petitjean_assignment_spec (dtw : DTWOracle) (X_ : List PSeries)
    (barycenter : PSeries) (t : ℕ)
    (hvalid : ∀ i, i < X_.length →
      ∀ pr ∈ (dtw (X_.getD i []) barycenter).1,
        pr.2 < barycenter.length) :
    (_petitjean_assignment dtw X_ barycenter).1.getD t [] =
      (petitjeanBucket dtw X_ barycenter t).map Prod.fst ∧
    (_petitjean_assignment dtw X_ barycenter).2.getD t [] =
      (petitjeanBucket dtw X_ barycenter t).map Prod.snd := by
  obtain ⟨o1, o2⟩ := pj_outer dtw X_ barycenter barycenter.length
    (List.range X_.length)
    (List.replicate barycenter.length [],
     List.replicate barycenter.length [])
    (by simp) (by simp)
    (by
      intro i hi pr hpr
      exact hvalid i (List.mem_range.mp hi) pr hpr) t
  constructor
  · show (_petitjean_assignment dtw X_ barycenter).1.getD t [] = _
    rw [show (_petitjean_assignment dtw X_ barycenter).1.getD t [] =
        ((List.range X_.length).foldl (fun assign i =>
          (dtw (X_.getD i []) barycenter).1.foldl (fun a pr =>
            (appendAt a.1 pr.2 i, appendAt a.2 pr.2 pr.1)) assign)
          (List.replicate barycenter.length [],
           List.replicate barycenter.length [])).1.getD t [] from rfl,
      o1, getD_replicate_nil, List.nil_append, petitjeanBucket,
      map_foldr_append]
    congr 1
    rw [List.map_map]
    refine List.map_congr_left ?_
    intro i _
    simp [Function.comp_def]
  · show (_petitjean_assignment dtw X_ barycenter).2.getD t [] = _
    rw [show (_petitjean_assignment dtw X_ barycenter).2.getD t [] =
        ((List.range X_.length).foldl (fun assign i =>
          (dtw (X_.getD i []) barycenter).1.foldl (fun a pr =>
            (appendAt a.1 pr.2 i, appendAt a.2 pr.2 pr.1)) assign)
          (List.replicate barycenter.length [],
           List.replicate barycenter.length [])).2.getD t [] from rfl,
      o2, getD_replicate_nil, List.nil_append, petitjeanBucket,
      map_foldr_append]
    congr 1
    rw [List.map_map]
    refine List.map_congr_left ?_
    intro i _
    simp [Function.comp_def]

/-- C4: in the Petitjean engine, given the assignment built by
recording every aligned pair of every series' warping path, the updated
barycenter value at each position `t` with a non-empty bucket is the
weighted mean (by `weight_i`) of all samples assigned to `t`, stated
per dimension `j`. -/
theorem petitjean_update_bucket_mean (dtw : DTWOracle)
    (X_ : List PSeries) (barycenter : PSeries) (weights : List ℚ)
    (t : ℕ) (ht : t < barycenter.length)
    (hvalid : ∀ i, i < X_.length →
      ∀ pr ∈ (dtw (X_.getD i []) barycenter).1,
        pr.2 < barycenter.length)
    (hsel : ∀ pr ∈ petitjeanBucket dtw X_ barycenter t,
      ∃ v, (X_.getD pr.1 []).getD pr.2 none = some v ∧
        v.length = dsdim X_)
    (hne : petitjeanBucket dtw X_ barycenter t ≠ []) :
    ∃ v, (_petitjean_update_barycenter (dsdim X_) X_
        (_petitjean_assignment dtw X_ barycenter) barycenter.length
        weights).getD t none = some v ∧
      ∀ j, entry v j =
        petitjeanSpecEntry dtw X_ barycenter weights t j := by
  obtain ⟨ha1, ha2⟩ := petitjean_assignment_spec dtw X_ barycenter t
    hvalid
  have hrow : (_petitjean_update_barycenter (dsdim X_) X_
      (_petitjean_assignment dtw X_ barycenter) barycenter.length
      weights).getD t none =
      npAverage (dsdim X_)
        (List.zipWith (fun i ti => (X_.getD i []).getD ti none)
          ((_petitjean_assignment dtw X_ barycenter).1.getD t [])
          ((_petitjean_assignment dtw X_ barycenter).2.getD t []))
        (((_petitjean_assignment dtw X_ barycenter).1.getD t []).map
          (fun i => weights.getD i 0)) := by
    show ((List.range barycenter.length).map _).getD t none = _
    rw [getD_map_range _ _ _ _ ht]
  rw [hrow, ha1, ha2, zipWith_map_same, List.map_map]
  have hall : ((petitjeanBucket dtw X_ barycenter t).map
      (fun pr => (X_.getD pr.1 []).getD pr.2 none)).all
      (fun r => r.isSome) = true := by
    rw [List.all_eq_true]
    intro r hr
    obtain ⟨pr, hpr, hrpr⟩ := List.mem_map.mp hr
    obtain ⟨v, hv, _⟩ := hsel pr hpr
    rw [← hrpr, hv]
    rfl
  rw [npAverage, if_pos hall]
  refine ⟨_, rfl, ?_⟩
  intro j
  have hlens : ∀ y ∈ List.zipWith vsmul
      ((petitjeanBucket dtw X_ barycenter t).map
        ((fun i => weights.getD i 0) ∘ Prod.fst))
      (((petitjeanBucket dtw X_ barycenter t).map
        (fun pr => (X_.getD pr.1 []).getD pr.2 none)).map
        (fun r => r.getD [])),
      y.length = dsdim X_ := by
    intro y hy
    obtain ⟨a, b, _, hb, hy'⟩ := mem_zipWith_imp hy
    obtain ⟨r, hr, hbr⟩ := List.mem_map.mp hb
    obtain ⟨pr, hpr, hrpr⟩ := List.mem_map.mp hr
    obtain ⟨v, hv, hvlen⟩ := hsel pr hpr
    rw [hy', length_vsmul, ← hbr, ← hrpr, hv]
    exact hvlen
  rw [entry_vsmul, entry_vsum _ _ hlens, List.map_map,
    List.map_zipWith, zipWith_map_same]
  simp only [Function.comp_def, entry_vsmul]
  rw [petitjeanSpecEntry, one_div_mul_eq_div]

/-- Witness for C4 at concrete inputs. -/
theorem petitjean_update_bucket_mean_witness :
    ∃ v, (_petitjean_update_barycenter (dsdim tinyX) tinyX
        (_petitjean_assignment dtwTriv tinyX [some [2]])
        ([some ([2] : Sample)] : PSeries).length [1, 1]).getD 0 none =
        some v ∧
      ∀ j, entry v j =
        petitjeanSpecEntry dtwTriv tinyX [some [2]] [1, 1] 0 j :=
  petitjean_update_bucket_mean dtwTriv tinyX [some [2]] [1, 1] 0
    (by decide)
    (by
      intro i _ pr hpr
      simp only [dtwTriv, List.mem_singleton] at hpr
      subst hpr
      decide)
    (by
      intro pr hpr
      have hb : petitjeanBucket dtwTriv tinyX [some [2]] 0 =
          [(0, 0), (1, 0)] := rfl
      rw [hb] at hpr
      rcases List.mem_cons.mp hpr with h | h
      · subst h
        exact ⟨[1], rfl, rfl⟩
      · rw [List.mem_singleton.mp h]
        exact ⟨[3], rfl, rfl⟩)
    (by
      intro hc
      have hb : petitjeanBucket dtwTriv tinyX [some [2]] 0 =
          [(0, 0), (1, 0)] := rfl
      rw [hb] at hc
      simp at hc)

/-! ## Claim C1: generic access lemmas for the MM development -/

lemma getD_mem_any {α : Type} (dflt : α) {l : List α} {n : ℕ}
    (h : n < l.length) : l.getD n dflt ∈ l := by
  rw [List.getD, List.get?_eq_getElem?, List.getElem?_eq_getElem h]
  exact List.getElem_mem h

lemma getD_map_in {α β : Type} (f : α → β) {l : List α} {t : ℕ}
    (h : t < l.length) (d0 : β) (d1 : α) :
    (l.map f).getD t d0 = f (l.getD t d1) := by
  rw [List.getD, List.getD, List.get?_eq_getElem?,
    List.get?_eq_getElem?, List.getElem?_map,
    List.getElem?_eq_getElem h]
  rfl

lemma getD_out {α : Type} (dflt : α) {l : List α} {n : ℕ}
    (h : l.length ≤ n) : l.getD n dflt = dflt :=
  List.getD_eq_default l dflt h

lemma tabulate_getD {α : Type} (dflt : α) (l : List α) :
    l = (List.range l.length).map (fun j => l.getD j dflt) := by
  apply List.ext_getElem
  · simp
  · intro i h1 h2
    rw [List.getElem_map, List.getElem_range, List.getD,
      List.get?_eq_getElem?, List.getElem?_eq_getElem h1]
    rfl

lemma getD_zipWith {α β γ : Type} (f : α → β → γ) {l1 : List α}
    {l2 : List β} {t : ℕ} (h1 : t < l1.length) (h2 : t < l2.length)
    (d0 : γ) (d1 : α) (d2 : β) :
    (List.zipWith f l1 l2).getD t d0 = f (l1.getD t d1) (l2.getD t d2) := by
  have hlen : t < (List.zipWith f l1 l2).length := by
    rw [List.length_zipWith]
    omega
  rw [List.getD, List.getD, List.getD, List.get?_eq_getElem?,
    List.get?_eq_getElem?, List.get?_eq_getElem?,
    List.getElem?_eq_getElem hlen, List.getElem?_eq_getElem h1,
    List.getElem?_eq_getElem h2, List.getElem_zipWith]
  rfl

lemma getD_take {α : Type} (dflt : α) (l : List α) {n i : ℕ}
    (h : i < n) : (l.take n).getD i dflt = l.getD i dflt := by
  rw [List.getD, List.getD, List.get?_eq_getElem?,
    List.get?_eq_getElem?, List.getElem?_take, if_pos h]

lemma ssum_map_mul_left (c : ℚ) {α : Type} (f : α → ℚ) (l : List α) :
    ssum (l.map (fun x => c * f x)) = c * ssum (l.map f) := by
  rw [ssum, ssum, List.sum_map_mul_left]

lemma zip_enum_snd {α : Type} (lp : List Path) (l2 : List α)
    (dflt : α) (h : lp.length = l2.length) :
    ∀ p ∈ List.zip lp.enum l2, p.2 = l2.getD p.1.1 dflt := by
  intro p hp
  obtain ⟨i, hi, hpi⟩ := List.mem_iff_getElem.mp hp
  have hi1 : i < lp.enum.length := by
    rw [List.length_zip] at hi
    omega
  have hi2 : i < l2.length := by
    rw [List.length_zip] at hi
    omega
  rw [List.getElem_zip] at hpi
  subst hpi
  rw [List.getElem_enum]
  show l2[i] = l2.getD i dflt
  rw [List.getD, List.get?_eq_getElem?, List.getElem?_eq_getElem hi2]
  rfl

/-! ## Claim C1: the warping-matrix construction -/

lemma getD_replicate_any {α : Type} (x dflt : α) (L t : ℕ) :
    (List.replicate L x).getD t dflt = if t < L then x else dflt := by
  rw [List.getD, List.get?_eq_getElem?, List.getElem?_replicate]
  split <;> rfl

lemma mset_getD_getD (m : List (List ℚ)) (a b : ℕ) (v : ℚ) (t j : ℕ)
    (ha : a < m.length) (hb : b < (m.getD a []).length) :
    ((mset m a b v).getD t []).getD j 0 =
      if a = t ∧ b = j then v else (m.getD t []).getD j 0 := by
  unfold mset
  by_cases hat : a = t
  · subst hat
    have hrow : (m.set a ((m.getD a []).set b v)).getD a [] =
        (m.getD a []).set b v := by
      rw [List.getD, List.get?_set_of_lt' _ m ha, if_pos rfl]
      rfl
    rw [hrow, List.getD, List.get?_set_of_lt' _ _ hb]
    by_cases hbj : b = j
    · subst hbj
      rw [if_pos rfl, if_pos ⟨rfl, rfl⟩]
      rfl
    · rw [if_neg hbj, if_neg (fun hc => hbj hc.2)]
      rfl
  · have hrow : (m.set a ((m.getD a []).set b v)).getD t [] =
        m.getD t [] := by
      rw [List.getD, List.get?_set_of_lt' _ m ha, if_neg hat]
      rfl
    rw [hrow, if_neg (fun hc => hat hc.1)]

lemma foldl_mset_invariant (L c : ℕ) :
    ∀ (path : Path) (m : List (List ℚ)), m.length = L →
      (∀ r ∈ m, r.length = c) →
      (∀ pr ∈ path, pr.1 < L ∧ pr.2 < c) →
      ((path.foldl (fun m pr => mset m pr.1 pr.2 1) m).length = L ∧
       (∀ r ∈ path.foldl (fun m pr => mset m pr.1 pr.2 1) m,
         r.length = c) ∧
       ∀ t j,
         ((path.foldl (fun m pr => mset m pr.1 pr.2 1) m).getD t
           []).getD j 0 =
           if (t, j) ∈ path then 1 else (m.getD t []).getD j 0) := by
  intro path
  induction path with
  | nil =>
    intro m hm hr _
    exact ⟨hm, hr, fun t j => by simp⟩
  | cons pr rest ih =>
    intro m hm hr hb
    have hpr := hb pr (List.mem_cons_self pr rest)
    have hrest : ∀ q ∈ rest, q.1 < L ∧ q.2 < c :=
      fun q hq => hb q (List.mem_cons_of_mem pr hq)
    have hm' : (mset m pr.1 pr.2 1).length = L := by
      rw [mset, List.length_set]
      exact hm
    have hrowm : (m.getD pr.1 []).length = c :=
      hr _ (getD_mem_any [] (by rw [hm]; exact hpr.1))
    have hr' : ∀ r ∈ mset m pr.1 pr.2 1, r.length = c := by
      intro r hrr
      rw [mset] at hrr
      rcases List.mem_or_eq_of_mem_set hrr with hrr | hrr
      · exact hr r hrr
      · rw [hrr, List.length_set]
        exact hrowm
    rw [List.foldl_cons]
    obtain ⟨i1, i2, i3⟩ := ih (mset m pr.1 pr.2 1) hm' hr' hrest
    refine ⟨i1, i2, ?_⟩
    intro t j
    rw [i3 t j,
      mset_getD_getD m pr.1 pr.2 1 t j (by rw [hm]; exact hpr.1)
        (by rw [hrowm]; exact hpr.2)]
    by_cases hmr : (t, j) ∈ rest
    · rw [if_pos hmr, if_pos (List.mem_cons_of_mem pr hmr)]
    · rw [if_neg hmr]
      by_cases hpq : pr.1 = t ∧ pr.2 = j
      · have hpr' : (t, j) = pr := by
          rcases hpq with ⟨hq1, hq2⟩
          rw [← hq1, ← hq2]
        rw [if_pos hpq, if_pos (List.mem_cons.mpr (Or.inl hpr'))]
      · have hnotc : (t, j) ∉ pr :: rest := by
          intro hc
          rcases List.mem_cons.mp hc with hc | hc
          · exact hpq ⟨congrArg Prod.fst hc.symm,
              congrArg Prod.snd hc.symm⟩
          · exact hmr hc
        rw [if_neg hpq, if_neg hnotc]

/-- Row `t` of the warping matrix built from a path is the indicator
row of the pairs aligned to `t`. -/
lemma wk_row (path : Path) (L c t : ℕ)
    (hb : ∀ pr ∈ path, pr.1 < L ∧ pr.2 < c) (ht : t < L) :
    (path.foldl (fun m pr => mset m pr.1 pr.2 1)
      (mzeros L c)).getD t [] =
      (List.range c).map
        (fun j => if decide ((t, j) ∈ path) then (1 : ℚ) else 0) := by
  obtain ⟨hlen, hrows, hent⟩ := foldl_mset_invariant L c path
    (mzeros L c) (by simp [mzeros])
    (by
      intro r hrr
      rw [List.eq_of_mem_replicate hrr]
      simp) hb
  have hrowlen : ((path.foldl (fun m pr => mset m pr.1 pr.2 1)
      (mzeros L c)).getD t []).length = c :=
    hrows _ (getD_mem_any [] (by rw [hlen]; exact ht))
  apply List.ext_getElem
  · rw [hrowlen]
    simp
  · intro j h1 h2
    rw [List.getElem_map, List.getElem_range,
      ← List.getD_eq_getElem _ 0 h1, hent t j]
    have hz : ((mzeros L c).getD t []).getD j 0 = 0 := by
      rw [mzeros, getD_replicate_any, if_pos ht, getD_replicate_any]
      split <;> rfl
    rw [hz]
    simp only [decide_eq_true_eq]

/-- The row sum of row `t` of the warping matrix counts the aligned
positions. -/
lemma wk_rowsum (path : Path) (L t : ℕ)
    (hb : ∀ pr ∈ path, pr.1 < L ∧ pr.2 < mmSzK path) (ht : t < L) :
    ssum ((path.foldl (fun m pr => mset m pr.1 pr.2 1)
      (mzeros L (mmSzK path))).getD t []) =
      ((mmAligned path t).length : ℕ) := by
  rw [wk_row path L (mmSzK path) t hb ht]
  exact ssum_map_ite_one (fun j => decide ((t, j) ∈ path))
    (List.range (mmSzK path))

/-! ## Claim C1: the valence accumulation -/

lemma ssum_cons (x : ℚ) (xs : List ℚ) : ssum (x :: xs) = x + ssum xs := by
  simp [ssum]

lemma map_ssum_getD (m : List (List ℚ)) (t : ℕ) :
    (m.map ssum).getD t 0 = ssum (m.getD t []) := by
  rcases Nat.lt_or_ge t m.length with h | h
  · rw [getD_map_in ssum h 0 []]
  · rw [getD_out _ (by simpa using h), getD_out _ h]
    simp [ssum]

/-- Entry- and list-level characterization of the valence/warping fold
with an abstract per-series warping matrix `g`. -/
lemma foldl_valence_spec (bsz : ℕ) (weights : List ℚ)
    (g : ℕ × Path → List (List ℚ)) (hg : ∀ kp, (g kp).length = bsz)
    (t : ℕ) :
    ∀ (l : List (ℕ × Path)) (acc : List ℚ × List (List (List ℚ))),
      acc.1.length = bsz →
      ((l.foldl (fun acc kp =>
          (vadd acc.1 (vsmul (weights.getD kp.1 0) (mrowsums (g kp))),
           acc.2 ++ [mscale (weights.getD kp.1 0) (g kp)])) acc).1.getD
          t 0 =
        acc.1.getD t 0 +
          ssum (l.map (fun kp =>
            weights.getD kp.1 0 * ssum ((g kp).getD t []))) ∧
       (l.foldl (fun acc kp =>
          (vadd acc.1 (vsmul (weights.getD kp.1 0) (mrowsums (g kp))),
           acc.2 ++ [mscale (weights.getD kp.1 0) (g kp)])) acc).2 =
        acc.2 ++ l.map (fun kp =>
          mscale (weights.getD kp.1 0) (g kp))) := by
  intro l
  induction l with
  | nil =>
    intro acc h1
    constructor
    · simp [ssum]
    · simp
  | cons kp rest ih =>
    intro acc h1
    rw [List.foldl_cons]
    have hacc' : (vadd acc.1 (vsmul (weights.getD kp.1 0)
        (mrowsums (g kp)))).length = bsz := by
      rw [length_vadd, h1, length_vsmul, length_mrowsums, hg, min_self]
    obtain ⟨e1, e2⟩ := ih (vadd acc.1 (vsmul (weights.getD kp.1 0)
        (mrowsums (g kp))),
      acc.2 ++ [mscale (weights.getD kp.1 0) (g kp)]) hacc'
    constructor
    · rw [e1]
      show entry (vadd acc.1 (vsmul (weights.getD kp.1 0)
        (mrowsums (g kp)))) t + _ = _
      rw [entry_vadd _ _ (by
          rw [h1, length_vsmul, length_mrowsums, hg]),
        entry_vsmul]
      rw [show entry (mrowsums (g kp)) t = ssum ((g kp).getD t [])
        from map_ssum_getD (g kp) t]
      rw [List.map_cons, ssum_cons]
      show acc.1.getD t 0 + _ + _ = _
      ring
    · rw [e2, List.map_cons]
      simp

/-- The valence vector of `_mm_valence_warping` matches the spec-side
weighted alignment multiplicity, and the warping-matrix list is the
per-series weighted indicator matrix list. -/
lemma mm_valence_spec (list_p_k : List Path) (bsz : ℕ)
    (weights : List ℚ) (t : ℕ) (ht : t < bsz)
    (hb : ∀ kp ∈ list_p_k.enum, ∀ pr ∈ kp.2,
      pr.1 < bsz ∧ pr.2 < mmSzK kp.2) :
    (_mm_valence_warping list_p_k bsz weights).1.getD t 0 =
      mmSpecValence list_p_k weights t ∧
    (_mm_valence_warping list_p_k bsz weights).2 =
      list_p_k.enum.map (fun kp => mscale (weights.getD kp.1 0)
        (kp.2.foldl (fun m pr => mset m pr.1 pr.2 1)
          (mzeros bsz (mmSzK kp.2)))) := by
  obtain ⟨e1, e2⟩ := foldl_valence_spec bsz weights
    (fun kp => kp.2.foldl (fun m pr => mset m pr.1 pr.2 1)
      (mzeros bsz (mmSzK kp.2)))
    (fun kp => by rw [length_foldl_mset]; simp [mzeros]) t
    list_p_k.enum (List.replicate bsz 0, []) (by simp)
  have e1' : (_mm_valence_warping list_p_k bsz weights).1.getD t 0 =
      (List.replicate bsz (0 : ℚ)).getD t 0 +
        ssum (list_p_k.enum.map (fun kp =>
          weights.getD kp.1 0 * ssum ((kp.2.foldl
            (fun m pr => mset m pr.1 pr.2 1)
            (mzeros bsz (mmSzK kp.2))).getD t []))) := e1
  have e2' : (_mm_valence_warping list_p_k bsz weights).2 =
      [] ++ list_p_k.enum.map (fun kp =>
        mscale (weights.getD kp.1 0) (kp.2.foldl
          (fun m pr => mset m pr.1 pr.2 1)
          (mzeros bsz (mmSzK kp.2)))) := e2
  constructor
  · rw [e1', getD_replicate_any]
    rw [mmSpecValence]
    have hz : (if t < bsz then (0 : ℚ) else 0) = 0 := by
      split <;> rfl
    rw [hz, zero_add]
    congr 1
    refine List.map_congr_left ?_
    intro kp hkp
    congr 1
    exact wk_rowsum kp.2 bsz t (hb kp hkp) ht
  · rw [e2', List.nil_append]

/-! ## Claim C1: the update step -/

lemma ts_size_le (s : PSeries) : ts_size s ≤ s.length := by
  rw [ts_size]
  calc (s.reverse.dropWhile (fun r => r.isNone)).length
      ≤ s.reverse.length :=
        List.Sublist.length_le (List.dropWhile_sublist _)
    _ = s.length := List.length_reverse s

lemma matvec_row_len (d : ℕ) (m : List (List ℚ)) (xs : List Sample)
    (hxs : ∀ r ∈ xs, r.length = d) :
    ∀ row ∈ matvec d m xs, row.length = d := by
  intro row hrow
  obtain ⟨wrow, _, hr⟩ := List.mem_map.mp hrow
  rw [← hr]
  refine length_vsum d _ ?_
  intro y hy
  obtain ⟨a, b, _, hb, hy'⟩ := mem_zipWith_imp hy
  rw [hy', length_vsmul]
  exact hxs b hb

/-- Entry evaluation of one weighted warping matrix applied to its
(truncated) series: `(weightₖ·Wₖ · xₖ)[t][j]` equals `weightₖ` times
the sum of `xₖ[s][j]` over the positions `s` aligned to `t`. -/
lemma matvec_scaled_entry (d : ℕ) (wk : ℚ) (path : Path) (bsz t : ℕ)
    (x : PSeries)
    (hb : ∀ pr ∈ path, pr.1 < bsz ∧ pr.2 < mmSzK path)
    (ht : t < bsz)
    (htrunc : mmSzK path = ts_size x)
    (hrows : ∀ s, s < ts_size x →
      ∃ v, x.getD s none = some v ∧ v.length = d)
    (j : ℕ) :
    entry ((matvec d (mscale wk (path.foldl
        (fun m pr => mset m pr.1 pr.2 1) (mzeros bsz (mmSzK path))))
        ((x.take (ts_size x)).map (fun r => r.getD (vzero d)))).getD t
        []) j =
      wk * ssum ((mmAligned path t).map
        (fun s => entry ((x.getD s none).getD []) j)) := by
  have hts := ts_size_le x
  have hW : (path.foldl (fun m pr => mset m pr.1 pr.2 1)
      (mzeros bsz (mmSzK path))).length = bsz := by
    rw [length_foldl_mset]
    simp [mzeros]
  have hrowsl : ((x.take (ts_size x)).map
      (fun r => r.getD (vzero d))).length = ts_size x := by
    rw [List.length_map, List.length_take, min_eq_left hts]
  have hrget : ∀ s, s < mmSzK path →
      ((x.take (ts_size x)).map (fun r => r.getD (vzero d))).getD s
        (vzero d) = (x.getD s none).getD (vzero d) := by
    intro s hs
    rw [htrunc] at hs
    have hlt : s < (x.take (ts_size x)).length := by
      rw [List.length_take, min_eq_left hts]
      exact hs
    rw [getD_map_in _ hlt (vzero d) none, getD_take none x hs]
  have h1 : (matvec d (mscale wk (path.foldl
      (fun m pr => mset m pr.1 pr.2 1) (mzeros bsz (mmSzK path))))
      ((x.take (ts_size x)).map (fun r => r.getD (vzero d)))).getD t
      [] =
      vsum d (List.zipWith vsmul
        ((mscale wk (path.foldl (fun m pr => mset m pr.1 pr.2 1)
          (mzeros bsz (mmSzK path)))).getD t [])
        ((x.take (ts_size x)).map (fun r => r.getD (vzero d)))) :=
    getD_map_in _ (by rw [mscale, List.length_map, hW]; exact ht) [] []
  have h2 : (mscale wk (path.foldl (fun m pr => mset m pr.1 pr.2 1)
      (mzeros bsz (mmSzK path)))).getD t [] =
      vsmul wk ((path.foldl (fun m pr => mset m pr.1 pr.2 1)
        (mzeros bsz (mmSzK path))).getD t []) :=
    getD_map_in _ (by rw [hW]; exact ht) [] []
  have htab : (x.take (ts_size x)).map (fun r => r.getD (vzero d)) =
      (List.range (mmSzK path)).map (fun s =>
        ((x.take (ts_size x)).map (fun r => r.getD (vzero d))).getD s
          (vzero d)) := by
    have h := tabulate_getD (vzero d) ((x.take (ts_size x)).map
      (fun r => r.getD (vzero d)))
    rw [hrowsl] at h
    rw [htrunc]
    exact h
  rw [h1, h2, wk_row path bsz (mmSzK path) t hb ht, vsmul,
    List.map_map]
  conv_lhs => rw [htab]
  rw [List.zipWith_map_left, List.zipWith_map_right,
    List.zipWith_same]
  simp only [Function.comp_def]
  have hlens : ∀ y ∈ (List.range (mmSzK path)).map (fun s =>
      vsmul (wk * (if decide ((t, s) ∈ path) then (1 : ℚ) else 0))
        (((x.take (ts_size x)).map (fun r => r.getD (vzero d))).getD s
          (vzero d))), y.length = d := by
    intro y hy
    obtain ⟨s, hs, hy'⟩ := List.mem_map.mp hy
    have hs' := List.mem_range.mp hs
    rw [← hy', length_vsmul, hrget s hs']
    obtain ⟨v, hv, hvlen⟩ := hrows s (by omega)
    rw [hv]
    exact hvlen
  rw [entry_vsum d _ hlens, List.map_map]
  have hcong : ∀ s ∈ List.range (mmSzK path),
      ((fun y => entry y j) ∘ (fun s =>
        vsmul (wk * (if decide ((t, s) ∈ path) then (1 : ℚ) else 0))
          (((x.take (ts_size x)).map (fun r => r.getD (vzero d))).getD
            s (vzero d)))) s =
      (if decide ((t, s) ∈ path) then (1 : ℚ) else 0) *
        (wk * entry (((x.take (ts_size x)).map
          (fun r => r.getD (vzero d))).getD s (vzero d)) j) := by
    intro s _
    simp only [Function.comp_apply, entry_vsmul]
    ring
  rw [List.map_congr_left hcong, ssum_map_ite_mul, ssum_map_mul_left]
  rw [show (List.range (mmSzK path)).filter
      (fun s => decide ((t, s) ∈ path)) = mmAligned path t from rfl]
  congr 1
  congr 1
  refine List.map_congr_left ?_
  intro s hs
  have hs' : s < mmSzK path := by
    have := (List.mem_filter.mp hs).1
    exact List.mem_range.mp this
  congr 1
  rw [hrget s hs']
  obtain ⟨v, hv, _⟩ := hrows s (by rw [← htrunc]; exact hs')
  rw [hv]
  rfl

/-- Entry characterization of the `sum_w_x` accumulation fold. -/
lemma foldl_sumwx_spec (d bsz t : ℕ) (ht : t < bsz) (j : ℕ) :
    ∀ (l : List (List (List ℚ) × PSeries)) (acc : List Sample),
      acc.length = bsz → (∀ r ∈ acc, r.length = d) →
      (∀ p ∈ l, p.1.length = bsz ∧
        ∀ r ∈ (p.2.take (ts_size p.2)).map
          (fun r => r.getD (vzero d)), r.length = d) →
      entry ((l.foldl (fun acc wx => List.zipWith vadd acc
          (matvec d wx.1 ((wx.2.take (ts_size wx.2)).map
            (fun r => r.getD (vzero d))))) acc).getD t []) j =
        entry (acc.getD t []) j +
          ssum (l.map (fun p => entry ((matvec d p.1
            ((p.2.take (ts_size p.2)).map
              (fun r => r.getD (vzero d)))).getD t []) j)) := by
  intro l
  induction l with
  | nil =>
    intro acc _ _ _
    simp [ssum]
  | cons p rest ih =>
    intro acc hacc haccr hl
    obtain ⟨hp1, hp2⟩ := hl p (List.mem_cons_self p rest)
    have hrest := fun q hq => hl q (List.mem_cons_of_mem p hq)
    have hmv : ∀ row ∈ matvec d p.1 ((p.2.take (ts_size p.2)).map
        (fun r => r.getD (vzero d))), row.length = d :=
      matvec_row_len d p.1 _ hp2
    have hmvlen : (matvec d p.1 ((p.2.take (ts_size p.2)).map
        (fun r => r.getD (vzero d)))).length = bsz := by
      rw [length_matvec, hp1]
    have hacc' : (List.zipWith vadd acc (matvec d p.1
        ((p.2.take (ts_size p.2)).map
          (fun r => r.getD (vzero d))))).length = bsz := by
      rw [List.length_zipWith, hacc, hmvlen, min_self]
    have haccr' : ∀ r ∈ List.zipWith vadd acc (matvec d p.1
        ((p.2.take (ts_size p.2)).map
          (fun r => r.getD (vzero d)))), r.length = d := by
      intro r hr
      obtain ⟨a, b, ha, hb, hr'⟩ := mem_zipWith_imp hr
      rw [hr', length_vadd, haccr a ha, hmv b hb, min_self]
    rw [List.foldl_cons, ih _ hacc' haccr' hrest]
    rw [getD_zipWith vadd (by rw [hacc]; exact ht)
      (by rw [hmvlen]; exact ht) [] [] []]
    rw [entry_vadd _ _ (by
      rw [haccr _ (getD_mem_any [] (by rw [hacc]; exact ht)),
        hmv _ (getD_mem_any [] (by rw [hmvlen]; exact ht))])]
    rw [List.map_cons, ssum_cons]
    ring

/-- C1: the Majorize-Minimize update computes
`diag(1/diag_sum_v_k) · Σₖ (Wₖ · xₖ)`: the valence vector is the
spec-side weighted alignment multiplicity `Σₖ weightₖ·#aligned(t,k)`,
and each barycenter entry is the weighted sum of aligned samples
divided by that valence, under the precondition that every barycenter
position is aligned at least once. -/
theorem mm_update_formula (X_ : List PSeries) (list_p_k : List Path)
    (weights : List ℚ) (bsz t : ℕ) (ht : t < bsz)
    (hlen : list_p_k.length = X_.length)
    (hb : ∀ kp ∈ list_p_k.enum, ∀ pr ∈ kp.2,
      pr.1 < bsz ∧ pr.2 < mmSzK kp.2)
    (htrunc : ∀ kp ∈ list_p_k.enum,
      mmSzK kp.2 = ts_size (X_.getD kp.1 []))
    (hrows : ∀ kp ∈ list_p_k.enum, ∀ s,
      s < ts_size (X_.getD kp.1 []) →
      ∃ v, (X_.getD kp.1 []).getD s none = some v ∧
        v.length = dsdim X_)
    (hpos : 0 < mmSpecValence list_p_k weights t) :
    (_mm_valence_warping list_p_k bsz weights).1.getD t 0 =
      mmSpecValence list_p_k weights t ∧
    ∃ v, (_mm_update_barycenter X_
        (_mm_valence_warping list_p_k bsz weights).1
        (_mm_valence_warping list_p_k bsz weights).2).getD t none =
      some v ∧
    ∀ j, entry v j = mmSpecNumerEntry X_ list_p_k weights t j /
      mmSpecValence list_p_k weights t := by
  obtain ⟨hv1, hv2⟩ := mm_valence_spec list_p_k bsz weights t ht hb
  obtain ⟨hdsvlen, hlwklen⟩ := mm_valence_lengths list_p_k bsz weights
  have henumlen : list_p_k.enum.length = X_.length := by
    rw [List.enum_length, hlen]
  have ht' : t < (_mm_valence_warping list_p_k bsz weights).1.length :=
    by rw [hdsvlen]; exact ht
  have hzipmem : ∀ p ∈ List.zip
      (_mm_valence_warping list_p_k bsz weights).2 X_,
      p.1.length = (_mm_valence_warping list_p_k bsz
        weights).1.length := by
    intro p hp
    rw [hdsvlen]
    exact hlwklen p.1 (List.of_mem_zip hp).1
  have hswxlen : ((List.zip (_mm_valence_warping list_p_k bsz
      weights).2 X_).foldl (fun acc wx => List.zipWith vadd acc
        (matvec (dsdim X_) wx.1 ((wx.2.take (ts_size wx.2)).map
          (fun r => r.getD (vzero (dsdim X_))))))
      (List.replicate (_mm_valence_warping list_p_k bsz
        weights).1.length (vzero (dsdim X_)))).length =
      (_mm_valence_warping list_p_k bsz weights).1.length :=
    foldl_sumwx_length (dsdim X_) _ _ _ (by simp) hzipmem
  have hupd : (_mm_update_barycenter X_
      (_mm_valence_warping list_p_k bsz weights).1
      (_mm_valence_warping list_p_k bsz weights).2).getD t none =
      some (vsmul
        (1 / (_mm_valence_warping list_p_k bsz weights).1.getD t 0)
        (((List.zip (_mm_valence_warping list_p_k bsz weights).2
          X_).foldl (fun acc wx => List.zipWith vadd acc
            (matvec (dsdim X_) wx.1 ((wx.2.take (ts_size wx.2)).map
              (fun r => r.getD (vzero (dsdim X_))))))
          (List.replicate (_mm_valence_warping list_p_k bsz
            weights).1.length (vzero (dsdim X_)))).getD t [])) := by
    have hzt : t < (List.zipWith (fun v row => vsmul (1 / v) row)
        (_mm_valence_warping list_p_k bsz weights).1
        ((List.zip (_mm_valence_warping list_p_k bsz weights).2
          X_).foldl (fun acc wx => List.zipWith vadd acc
            (matvec (dsdim X_) wx.1 ((wx.2.take (ts_size wx.2)).map
              (fun r => r.getD (vzero (dsdim X_))))))
          (List.replicate (_mm_valence_warping list_p_k bsz
            weights).1.length (vzero (dsdim X_))))).length := by
      rw [List.length_zipWith, hswxlen, min_self]
      exact ht'
    have hcast : (_mm_update_barycenter X_
        (_mm_valence_warping list_p_k bsz weights).1
        (_mm_valence_warping list_p_k bsz weights).2).getD t none =
        ((List.zipWith (fun v row => vsmul (1 / v) row)
          (_mm_valence_warping list_p_k bsz weights).1
          ((List.zip (_mm_valence_warping list_p_k bsz weights).2
            X_).foldl (fun acc wx => List.zipWith vadd acc
              (matvec (dsdim X_) wx.1 ((wx.2.take (ts_size
                wx.2)).map (fun r => r.getD (vzero (dsdim X_))))))
            (List.replicate (_mm_valence_warping list_p_k bsz
              weights).1.length (vzero (dsdim X_))))).map some).getD
          t none := rfl
    rw [hcast, getD_map_in some hzt none []]
    rw [getD_zipWith _ ht' (by rw [hswxlen]; exact ht') [] 0 []]
  rw [hupd]
  refine ⟨hv1, _, rfl, ?_⟩
  intro j
  rw [entry_vsmul]
  have hsum := foldl_sumwx_spec (dsdim X_)
    (_mm_valence_warping list_p_k bsz weights).1.length t ht' j
    (List.zip (_mm_valence_warping list_p_k bsz weights).2 X_)
    (List.replicate (_mm_valence_warping list_p_k bsz
      weights).1.length (vzero (dsdim X_)))
    (by simp)
    (by
      intro r hr
      rw [List.eq_of_mem_replicate hr]
      simp [vzero])
    (by
      intro p hp
      refine ⟨hzipmem p hp, ?_⟩
      have hp' := hp
      rw [hv2, List.zip_map_left] at hp'
      obtain ⟨q, hq, hqp⟩ := List.mem_map.mp hp'
      have hkp : q.1 ∈ list_p_k.enum := (List.of_mem_zip hq).1
      have hx : q.2 = X_.getD q.1.1 [] :=
        zip_enum_snd list_p_k X_ [] hlen q hq
      intro r hr
      have hr2 : r ∈ (q.2.take (ts_size q.2)).map
          (fun r => r.getD (vzero (dsdim X_))) := by
        rw [← hqp] at hr
        exact hr
      rw [hx] at hr2
      obtain ⟨ps, hps, hr'⟩ := List.mem_map.mp hr2
      obtain ⟨i, hi, hpi⟩ := List.mem_iff_getElem.mp hps
      have hits : i < ts_size (X_.getD q.1.1 []) := by
        rw [List.length_take] at hi
        omega
      have hps' : ps = (X_.getD q.1.1 []).getD i none := by
        rw [← List.getD_eq_getElem _ none hi] at hpi
        rw [← hpi, getD_take none _ hits]
      obtain ⟨v, hv, hvlen⟩ := hrows q.1 hkp i hits
      rw [← hr', hps', hv]
      exact hvlen)
  rw [hsum]
  rw [show entry ((List.replicate (_mm_valence_warping list_p_k bsz
      weights).1.length (vzero (dsdim X_))).getD t []) j = 0 from by
    rw [getD_replicate_any, if_pos ht']
    exact entry_vzero _ _]
  rw [zero_add, hv2, List.zip_map_left, List.map_map]
  have hcong : ∀ q ∈ List.zip list_p_k.enum X_,
      ((fun p : List (List ℚ) × PSeries =>
        entry ((matvec (dsdim X_) p.1 ((p.2.take (ts_size p.2)).map
          (fun r => r.getD (vzero (dsdim X_))))).getD t []) j) ∘
        Prod.map (fun kp : ℕ × Path =>
          mscale (weights.getD kp.1 0) (kp.2.foldl
            (fun m pr => mset m pr.1 pr.2 1)
            (mzeros bsz (mmSzK kp.2)))) id) q =
      weights.getD q.1.1 0 * ssum ((mmAligned q.1.2 t).map
        (fun s => entry (((X_.getD q.1.1 []).getD s none).getD [])
          j)) := by
    intro q hq
    have hkp : q.1 ∈ list_p_k.enum := (List.of_mem_zip hq).1
    have hx : q.2 = X_.getD q.1.1 [] :=
      zip_enum_snd list_p_k X_ [] hlen q hq
    show entry ((matvec (dsdim X_)
        (mscale (weights.getD q.1.1 0) (q.1.2.foldl
          (fun m pr => mset m pr.1 pr.2 1)
          (mzeros bsz (mmSzK q.1.2))))
        ((q.2.take (ts_size q.2)).map
          (fun r => r.getD (vzero (dsdim X_))))).getD t []) j = _
    rw [hx]
    exact matvec_scaled_entry (dsdim X_) (weights.getD q.1.1 0) q.1.2
      bsz t (X_.getD q.1.1 []) (hb q.1 hkp) ht (htrunc q.1 hkp)
      (hrows q.1 hkp) j
  rw [List.map_congr_left hcong]
  have hfst : (List.zip list_p_k.enum X_).map
      (fun q => weights.getD q.1.1 0 * ssum ((mmAligned q.1.2 t).map
        (fun s => entry (((X_.getD q.1.1 []).getD s none).getD [])
          j))) =
      list_p_k.enum.map (fun kp =>
        weights.getD kp.1 0 * ssum ((mmAligned kp.2 t).map
          (fun s => entry (((X_.getD kp.1 []).getD s none).getD [])
            j))) := by
    rw [show (List.zip list_p_k.enum X_).map
        (fun q => weights.getD q.1.1 0 * ssum ((mmAligned q.1.2
          t).map (fun s => entry (((X_.getD q.1.1 []).getD s
            none).getD []) j))) =
        ((List.zip list_p_k.enum X_).map Prod.fst).map (fun kp =>
          weights.getD kp.1 0 * ssum ((mmAligned kp.2 t).map
            (fun s => entry (((X_.getD kp.1 []).getD s none).getD [])
              j))) from by rw [List.map_map]; rfl]
    rw [List.map_fst_zip _ _ (by rw [henumlen])]
  rw [hfst, hv1, one_div_mul_eq_div]
  rfl

/-- Witness for C1 at concrete inputs. -/
theorem mm_update_formula_witness :
    (_mm_valence_warping [[(0, 0)], [(0, 0)]] 1 [1, 1]).1.getD 0 0 =
      mmSpecValence [[(0, 0)], [(0, 0)]] [1, 1] 0 ∧
    ∃ v, (_mm_update_barycenter tinyX
        (_mm_valence_warping [[(0, 0)], [(0, 0)]] 1 [1, 1]).1
        (_mm_valence_warping [[(0, 0)], [(0, 0)]] 1 [1, 1]).2).getD 0
        none = some v ∧
    ∀ j, entry v j =
      mmSpecNumerEntry tinyX [[(0, 0)], [(0, 0)]] [1, 1] 0 j /
        mmSpecValence [[(0, 0)], [(0, 0)]] [1, 1] 0 :=
  mm_update_formula tinyX [[(0, 0)], [(0, 0)]] [1, 1] 1 0
    (by decide) rfl (by decide) (by decide)
    (by
      intro kp hkp s hs
      have hts : ∀ k, k < 2 →
          ts_size (tinyX.getD k []) = 1 := by decide
      have hkp' : kp = (0, [(0, 0)]) ∨ kp = (1, [(0, 0)]) := by
        rcases List.mem_cons.mp hkp with h | h
        · exact Or.inl h
        · exact Or.inr (List.mem_singleton.mp h)
      rcases hkp' with h | h <;> subst h
      · rw [hts 0 (by decide)] at hs
        have hs0 : s = 0 := by omega
        subst hs0
        exact ⟨[1], rfl, rfl⟩
      · rw [hts 1 (by decide)] at hs
        have hs0 : s = 0 := by omega
        subst hs0
        exact ⟨[3], rfl, rfl⟩)
    (by
      have hval : mmSpecValence [[(0, 0)], [(0, 0)]] [1, 1] 0 = 2 := by
        have hcount : ∀ pth : Path, pth = [(0, 0)] →
            ((mmAligned pth 0).length : ℕ) = 1 := by
          intro pth hp
          subst hp
          decide
        rw [mmSpecValence]
        rw [show ([[(0, 0)], [(0, 0)]] : List Path).enum =
          [(0, [(0, 0)]), (1, [(0, 0)])] from rfl]
        rw [List.map_cons, List.map_cons, List.map_nil]
        rw [hcount [(0, 0)] rfl]
        norm_num [ssum]
      rw [hval]
      norm_num)

end Tslearn
